import Mathlib

/-!
Verification of the scoutfs in-memory item cache (`src/item.c`).

The cache is embedded shallowly:

* The item rbtree (`struct item_cache.items`) is modelled as a list of
  `CachedItem` records kept sorted by key; the rbtree guarantees unique
  keys, which the list operations mirror by acting on the first (hence
  only) occurrence of a key, exactly as the C code acts through the one
  node `walk_items` finds.
* The range rbtree is a list of closed intervals.
* The LRU (`lru_list`) is a list of keys, head = least recently used.
* Keys, their comparison, increment and decrement are primitives per the
  spec ("The item key type and key comparison/increment/decrement are
  assumed primitives"); they are modelled as naturals.  The dirty
  subtree augmentation bits (LEFT_DIRTY/RIGHT_DIRTY) are an artifact of
  the rbtree representation used only to enumerate dirty items in key
  order; on the list model that enumeration is the sorted order itself,
  so only the SELF dirty bit is represented.
* External collaborators (the segment reader invoked by
  `scoutfs_manifest_read_items`) are modelled by a script: a list of
  (return value, resulting cache) pairs, one entry per fill call.
* Loops whose bound is not structural carry explicit fuel; a fuel that
  covers the executions under scrutiny is supplied at each use.
* `BUG()`/`BUG_ON()` paths (kernel panic, no post-state) are modelled
  with `Option`, `none` meaning the fatal branch was taken.
-/

namespace Scoutfs

/-- Modelled from the spec: `scoutfs_key_inc`, a key primitive. -/
def keyInc (k : Nat) : Nat := k + 1

/-- Modelled from the spec: `scoutfs_key_dec`, a key primitive (total away
from the zero edge, which the spec calls a precondition violation). -/
def keyDec (k : Nat) : Nat := k - 1

/-- Modelled from the spec: `scoutfs_key_compare_ranges`, the range-overlap
compare key primitive.  Negative when the first range is entirely before
the second, positive when entirely after, zero on overlap. -/
def cmpRanges (aStart aEnd bStart bEnd : Nat) : Ordering :=
  if aEnd < bStart then Ordering.lt
  else if bEnd < aStart then Ordering.gt
  else Ordering.eq

/-- Linux errno values as negative returns, as the C code uses them. -/
def EEXIST : Int := -17

def ENOENT : Int := -2

def EINVAL : Int := -22

def ENOMEM : Int := -12

/-- The internal "needs a segment fill" code; never surfaced to callers. -/
def ENODATA : Int := -61

/-- `struct cached_item`: one record per cached key.  `val = none` models a
null value pointer (with `val_len = 0`); `dirty` is the SELF dirty bit. -/
structure CachedItem where
  key : Nat
  deletion : Bool
  persistent : Bool
  dirty : Bool
  val : Option (List Nat)
deriving Repr, DecidableEq

/-- `item->val_len`: the length of the value buffer, 0 for a null value. -/
def valLen (it : CachedItem) : Nat :=
  match it.val with
  | some v => v.length
  | none => 0

/-- `struct cached_range`: a closed interval of keys. -/
structure Rng where
  start : Nat
  stop : Nat
deriving Repr, DecidableEq

/-- `struct item_cache`: the rbtrees, the dirty accounting and the LRU.
The spinlock is implicit: every modelled operation is one critical
section. -/
structure Cache where
  items : List CachedItem
  ranges : List Rng
  nrDirtyItems : Int
  dirtyValBytes : Int
  lru : List Nat
deriving Repr, DecidableEq

/-- Lock modes of the distributed lock collaborator. -/
inductive LockMode where
  | read
  | write
  | writeOnly
deriving Repr, DecidableEq

/-- `struct scoutfs_lock`: mode plus covered key range. -/
structure Lock where
  mode : LockMode
  start : Nat
  stop : Nat
deriving Repr, DecidableEq

/-- `lock_coverage()`: the lock protects the key for the operation mode. -/
def lockCoverage (lock : Lock) (key : Nat) (opMode : LockMode) : Bool :=
  (opMode == lock.mode ||
   (opMode == LockMode.read && lock.mode == LockMode.write)) &&
  cmpRanges key key lock.start lock.stop == Ordering.eq

/-- `alloc_item()`: a fresh item is clean, not a deletion, not persistent. -/
def allocItem (key : Nat) (val : Option (List Nat)) : CachedItem :=
  { key := key, deletion := false, persistent := false, dirty := false,
    val := val }

/-- `copy_item_val()`: bytes copied into the caller's buffer of the given
length; a null buffer (`none`) copies nothing and returns 0. -/
def copyItemVal (buf : Option Nat) (it : CachedItem) : Nat :=
  match buf with
  | some len => min (valLen it) len
  | none => 0

/-- Exact-key search of the item rbtree (`walk_items` hitting the key).
Keys are unique in the tree, so the first match is the only match. -/
def findItemRaw (items : List CachedItem) (k : Nat) : Option CachedItem :=
  items.find? (fun it => it.key == k)

/-- `find_item()`: exact lookup that hides deletion items. -/
def findItem (items : List CachedItem) (k : Nat) : Option CachedItem :=
  match findItemRaw items k with
  | some it => if it.deletion then none else some it
  | none => none

/-- In-place update of the (unique) item with key `k`, as the C code does
through the pointer returned by the tree walk. -/
def setItem : List CachedItem → Nat → (CachedItem → CachedItem) → List CachedItem
  | [], _, _ => []
  | it :: rest, k, f =>
    if it.key == k then f it :: rest else it :: setItem rest k f

/-- `rb_erase` of the (unique) node with key `k`. -/
def eraseKey : List CachedItem → Nat → List CachedItem
  | [], _ => []
  | it :: rest, k => if it.key == k then rest else it :: eraseKey rest k

/-- `rb_link_node`/`rb_insert`: link a new item at its sorted position. -/
def insertSorted : List CachedItem → CachedItem → List CachedItem
  | [], ins => [ins]
  | it :: rest, ins =>
    if ins.key < it.key then ins :: it :: rest else it :: insertSorted rest ins

/-- `list_del` of an lru entry (each clean item appears once). -/
def lruDel (lru : List Nat) (k : Nat) : List Nat :=
  lru.filter (fun x => x != k)

/-- `list_add_tail` onto the lru. -/
def lruAddTail (lru : List Nat) (k : Nat) : List Nat :=
  lru ++ [k]

/-- `list_move_tail`: refresh an lru position. -/
def lruMoveTail (lru : List Nat) (k : Nat) : List Nat :=
  lruDel lru k ++ [k]

/-- `update_dirty_item_counts()`: adjust the running totals (the transaction
tracker callout is out of scope). -/
def updateDirtyCounts (cac : Cache) (items vals : Int) : Cache :=
  { cac with nrDirtyItems := cac.nrDirtyItems + items,
             dirtyValBytes := cac.dirtyValBytes + vals }

/-- `mark_item_dirty()`: set the SELF bit, leave the lru, bump counters.
Acts through the item found at the key, as the C acts through its pointer;
absent key models the WARN_ON_ONCE early return. -/
def markItemDirty (cac : Cache) (k : Nat) : Cache :=
  match findItemRaw cac.items k with
  | none => cac
  | some it =>
    if it.dirty then cac
    else
      let c := { cac with
        items := setItem cac.items k (fun i => { i with dirty := true }),
        lru := lruDel cac.lru k }
      updateDirtyCounts c 1 (valLen it)

/-- `clear_item_dirty()`: clear the SELF bit, rejoin the lru tail, drop the
counters. -/
def clearItemDirty (cac : Cache) (k : Nat) : Cache :=
  match findItemRaw cac.items k with
  | none => cac
  | some it =>
    if !it.dirty then cac
    else
      let c := { cac with
        items := setItem cac.items k (fun i => { i with dirty := false }),
        lru := lruAddTail cac.lru k }
      updateDirtyCounts c (-1) (-(valLen it : Int))

/-- `item_referenced()`: the C gates the lru move on the item's whole
`dirty` word — the SELF bit together with the rbtree's aggregated
LEFT/RIGHT subtree-dirty bits, which depend on the tree's shape.  The
list embedding carries no tree shape, so the model gates on the SELF
bit, the only shape-independent part of the word: it agrees with the C
whenever the item is dirty (the word is then nonzero) or the whole tree
is clean, and it over-approximates the move for a clean item that is a
tree ancestor of a dirty one.  No theorem below relies on the move
happening for a clean item. -/
def itemReferenced (cac : Cache) (k : Nat) : Cache :=
  match findItemRaw cac.items k with
  | none => cac
  | some it =>
    if it.dirty then cac
    else { cac with lru := lruMoveTail cac.lru k }

/-- `unlink_item()`: clear dirty accounting, erase from the tree, leave the
lru. -/
def unlinkItem (cac : Cache) (k : Nat) : Cache :=
  let c := clearItemDirty cac k
  { c with items := eraseKey c.items k, lru := lruDel c.lru k }

/-- `erase_item()`: unlink and free. -/
def eraseItem (cac : Cache) (k : Nat) : Cache :=
  unlinkItem cac k

/-- `delete_item()`: non-persistent items are freed outright; persistent
ones become dirty deletion items with a freed value. -/
def deleteItem (cac : Cache) (k : Nat) : Cache :=
  match findItemRaw cac.items k with
  | none => cac
  | some it =>
    if !it.persistent then eraseItem cac k
    else
      let c := clearItemDirty cac k
      let c := { c with
        items := setItem c.items k
          (fun i => { i with val := none, deletion := true }) }
      markItemDirty c k

/-- Linking the insertion into the tree and onto the lru tail
(`rb_link_node`, `rb_insert_augmented`, `list_add_tail` in
`insert_item()`; the inserted item is clean, per the BUG_ON). -/
def linkItem (cac : Cache) (ins : CachedItem) : Cache :=
  { cac with items := insertSorted cac.items ins,
             lru := lruAddTail cac.lru ins.key }

/-- `insert_item()`.  Cache population refuses any existing item; logical
overwrite (and, by default, only for deletion items) erases the existing
item, inherits its persistence and restarts the descent.  Keys are unique,
so the restarted descent finds no further match and links the insertion;
the restart is unrolled accordingly. -/
def insertItem (cac : Cache) (ins : CachedItem)
    (logicalOverwrite cachePopulate : Bool) : Int × Cache :=
  match findItemRaw cac.items ins.key with
  | some item =>
    if cachePopulate || (!item.deletion && !logicalOverwrite) then
      (EEXIST, cac)
    else
      let c := eraseItem cac item.key
      let ins := if item.persistent then { ins with persistent := true } else ins
      (0, linkItem c ins)
  | none => (0, linkItem cac ins)

/-- `check_range()` / `walk_ranges()` at a single key: the enclosing cached
range, if any. -/
def checkRange (ranges : List Rng) (key : Nat) : Option Rng :=
  ranges.find? (fun r => cmpRanges key key r.start r.stop == Ordering.eq)

/-- Range-overlap test used while descending the range tree. -/
def overlapsB (a b : Rng) : Bool :=
  cmpRanges a.start a.stop b.start b.stop == Ordering.eq

/-- Link a range at its sorted position (ranges in the tree are disjoint,
so descending by `cmpRanges` orders them by their endpoints). -/
def insertSortedRng : List Rng → Rng → List Rng
  | [], ins => [ins]
  | r :: rest, ins =>
    if ins.stop < r.start then ins :: r :: rest else r :: insertSortedRng rest ins

/-- In-place narrowing of a range node, keeping its tree position. -/
def replaceRng (ranges : List Rng) (old new : Rng) : List Rng :=
  ranges.map (fun r => if r == old then new else r)

/-- `insert_range()`: combine with and erase overlapping ranges, restarting
the descent after each, then link.  The descent that stops at the first
overlap is modelled by `find?` over the ordered list; each recursive step
erases one overlapping range, so the fuel `ranges.length + 2` covers every
execution. -/
def insertRangeGo : Nat → List Rng → Rng → List Rng
  | 0, ranges, _ => ranges
  | fuel + 1, ranges, ins =>
    match ranges.find? (fun rng => overlapsB ins rng) with
    | none => insertSortedRng ranges ins
    | some rng =>
      if rng.start ≤ ins.start && ins.stop ≤ rng.stop then
        ranges
      else
        let ins :=
          if ins.start < rng.start && ins.stop < rng.stop then
            { ins with stop := rng.stop }
          else if rng.start < ins.start && rng.stop < ins.stop then
            { ins with start := rng.start }
          else ins
        insertRangeGo fuel (ranges.filter (fun r => r != rng)) ins

def insertRange (ranges : List Rng) (ins : Rng) : List Rng :=
  insertRangeGo (ranges.length + 2) ranges ins

/-- `remove_range()`: clip, split or erase each overlapping range.  A strictly
interior removal shrinks the existing range to end at `rem.start - 1` and
re-purposes the caller's range as `[rem.end + 1, old end]`, to be linked once
the descent finds no more overlaps.  Each recursive step erases one range or
makes one range disjoint from the removal, so `ranges.length + 2` fuel
covers every execution. -/
def removeRangeGo : Nat → List Rng → Rng → Bool → List Rng
  | 0, ranges, _, _ => ranges
  | fuel + 1, ranges, rem, insFlag =>
    match ranges.find? (fun rng => overlapsB rem rng) with
    | none => if insFlag then insertSortedRng ranges rem else ranges
    | some rng =>
      if rng.start < rem.start && rem.stop < rng.stop then
        removeRangeGo fuel
          (replaceRng ranges rng { rng with stop := keyDec rem.start })
          { start := keyInc rem.stop, stop := rng.stop } true
      else if rem.start < rng.start && rem.stop < rng.stop then
        removeRangeGo fuel
          (replaceRng ranges rng { rng with start := keyInc rem.stop })
          { rem with stop := rng.start } insFlag
      else if rng.start < rem.start && rng.stop < rem.stop then
        removeRangeGo fuel
          (replaceRng ranges rng { rng with stop := keyDec rem.start })
          { rem with start := rng.stop } insFlag
      else
        removeRangeGo fuel (ranges.filter (fun r => r != rng)) rem insFlag

def removeRange (ranges : List Rng) (rem : Rng) : List Rng :=
  removeRangeGo (ranges.length + 2) ranges rem false

/-!
The public API.  Each function below is the body of its C namesake; the
retry loops around `scoutfs_manifest_read_items` thread a script of reader
responses, one `(return value, cache left behind by the reader)` pair per
fill call.
-/

/-- One reader response per fill: its return value and the cache state its
batch insertion left behind. -/
abbrev Script := List (Int × Cache)

/-- The critical section of `scoutfs_item_lookup`: hit copies the value and
refreshes the lru, a covered miss is an authoritative ENOENT, otherwise a
fill is needed. -/
def lookupStep (cac : Cache) (key : Nat) (buf : Option Nat) : Int × Cache :=
  match findItem cac.items key with
  | some it =>
    let c := itemReferenced cac key
    match buf with
    | some _ => ((copyItemVal buf it : Int), c)
    | none => (0, c)
  | none =>
    if (checkRange cac.ranges key).isSome then (ENOENT, cac)
    else (ENODATA, cac)

/-- The `do ... while (ret == -ENODATA && read_items() == 0)` retry loop of
`scoutfs_item_lookup`.  `none` means the script ran out while a fill was
still needed (the C loop would call the reader again). -/
def lookupLoop (key : Nat) (buf : Option Nat) :
    Cache → Script → Option (Int × Cache)
  | cac, script =>
    let p := lookupStep cac key buf
    if p.1 != ENODATA then some p
    else
      match script with
      | [] => none
      | q :: rest =>
        if q.1 != 0 then some (q.1, q.2) else lookupLoop key buf q.2 rest

/-- `scoutfs_item_lookup()`. -/
def scoutfs_item_lookup (cac : Cache) (key : Nat) (buf : Option Nat)
    (lock : Lock) (script : Script) : Option (Int × Cache) :=
  if !lockCoverage lock key LockMode.read then some (EINVAL, cac)
  else lookupLoop key buf cac script

/-- `next_item`: the item at the key or the next one after it. -/
def nextItem (items : List CachedItem) (k : Nat) : Option CachedItem :=
  items.find? (fun it => k ≤ it.key)

/-- `prev_item`: the item at the key or the previous one before it. -/
def prevItem (items : List CachedItem) (k : Nat) : Option CachedItem :=
  (items.reverse).find? (fun it => it.key ≤ k)

/-- `next_item_node` folded into `item_for_next`: the first non-deletion
item at or after `pos`, bounded by the lesser of the range end and the
caller's last key.  On the sorted list the successor walk that skips
deletion items and stops past the bound is the first list entry passing
all three tests. -/
def itemForNext (items : List CachedItem) (pos rngEnd last : Nat) :
    Option CachedItem :=
  let last := if rngEnd < last then rngEnd else last
  items.find? (fun it => pos ≤ it.key && it.key ≤ last && !it.deletion)

/-- Mirror image for `item_for_prev`. -/
def itemForPrev (items : List CachedItem) (pos rngStart first : Nat) :
    Option CachedItem :=
  let first := if first < rngStart then rngStart else first
  (items.reverse).find? (fun it => it.key ≤ pos && first ≤ it.key && !it.deletion)

/-- The `for (;;)` loop of `scoutfs_item_next`: check coverage of the
iterator position, fill when uncovered, hop over empty cached ranges,
return the found item or an authoritative ENOENT.  Yields the return
value, the caller's key (overwritten on success), the cache and the
unconsumed script; `none` when the fuel or script runs out mid-loop. -/
def nextLoop :
    Nat → Cache → Nat → Nat → Nat → Option Nat → Script →
    Option (Int × Nat × Cache × Script)
  | 0, _, _, _, _, _, _ => none
  | fuel + 1, cac, key0, pos, last, val, script =>
    match checkRange cac.ranges pos with
    | none =>
      match script with
      | [] => none
      | q :: rest =>
        if q.1 != 0 then some (q.1, key0, q.2, rest)
        else nextLoop fuel q.2 key0 pos last val rest
    | some rng =>
      match itemForNext cac.items pos rng.stop last with
      | none =>
        if rng.stop < last then
          nextLoop fuel cac key0 (keyInc rng.stop) last val script
        else some (ENOENT, key0, cac, script)
      | some it =>
        match val with
        | some _ =>
          let c := itemReferenced cac it.key
          some ((copyItemVal val it : Int), it.key, c, script)
        | none => some (0, it.key, cac, script)

/-- `scoutfs_item_next()`. -/
def scoutfs_item_next (cac : Cache) (key last : Nat) (val : Option Nat)
    (lock : Lock) (script : Script) (fuel : Nat) :
    Option (Int × Nat × Cache × Script) :=
  let last := if lock.stop < last then lock.stop else last
  if last < key then some (ENOENT, key, cac, script)
  else if !lockCoverage lock key LockMode.read then
    some (EINVAL, key, cac, script)
  else nextLoop fuel cac key key last val script

/-- The `for (;;)` loop of `scoutfs_item_prev`, mirror of `nextLoop`. -/
def prevLoop :
    Nat → Cache → Nat → Nat → Nat → Option Nat → Script →
    Option (Int × Nat × Cache × Script)
  | 0, _, _, _, _, _, _ => none
  | fuel + 1, cac, key0, pos, first, val, script =>
    match checkRange cac.ranges pos with
    | none =>
      match script with
      | [] => none
      | q :: rest =>
        if q.1 != 0 then some (q.1, key0, q.2, rest)
        else prevLoop fuel q.2 key0 pos first val rest
    | some rng =>
      match itemForPrev cac.items pos rng.start first with
      | none =>
        if first < rng.start then
          prevLoop fuel cac key0 (keyDec rng.start) first val script
        else some (ENOENT, key0, cac, script)
      | some it =>
        match val with
        | some _ =>
          let c := itemReferenced cac it.key
          some ((copyItemVal val it : Int), it.key, c, script)
        | none => some (0, it.key, cac, script)

/-- `scoutfs_item_prev()`. -/
def scoutfs_item_prev (cac : Cache) (key first : Nat) (val : Option Nat)
    (lock : Lock) (script : Script) (fuel : Nat) :
    Option (Int × Nat × Cache × Script) :=
  let first := if lock.start > first then lock.start else first
  if key < first then some (ENOENT, key, cac, script)
  else if !lockCoverage lock key LockMode.read then
    some (EINVAL, key, cac, script)
  else prevLoop fuel cac key key first val script

/-- The critical section of `scoutfs_item_create`: the key must be covered
by a cached range to prove absence, then a default-mode insertion is
marked dirty. -/
def createStep (cac : Cache) (key : Nat) (val : Option (List Nat)) :
    Int × Cache :=
  if (checkRange cac.ranges key).isNone then (ENODATA, cac)
  else
    let item := allocItem key val
    let p := insertItem cac item false false
    if p.1 = 0 then (0, markItemDirty p.2 key) else (p.1, cac)

/-- `scoutfs_item_create_force()`: logical overwrite with `persistent`
forced; a failed insertion is the fatal corruption branch (`none`). -/
def createForceStep (cac : Cache) (key : Nat) (val : Option (List Nat)) :
    Option (Int × Cache) :=
  let item := { allocItem key val with persistent := true }
  let p := insertItem cac item true false
  if p.1 = 0 then some (0, markItemDirty p.2 key) else none

/-- The per-item body of `scoutfs_item_insert_batch`: items read from
segments are persistent and inserted with `cache_populate`; duplicates are
dropped on the floor. -/
def insertBatchItems : Cache → List (Nat × Option (List Nat)) → Cache
  | cac, [] => cac
  | cac, (k, v) :: rest =>
    let item := { allocItem k v with persistent := true }
    insertBatchItems (insertItem cac item false true).2 rest

/-- `scoutfs_item_insert_batch()`: install the covered range, then the
non-duplicate items. -/
def insertBatchStep (cac : Cache) (list : List (Nat × Option (List Nat)))
    (start stop : Nat) : Int × Cache :=
  if stop < start then (EINVAL, cac)
  else
    let c := { cac with ranges := insertRange cac.ranges ⟨start, stop⟩ }
    (0, insertBatchItems c list)

/-- The critical section of `scoutfs_item_dirty`. -/
def dirtyStep (cac : Cache) (key : Nat) : Int × Cache :=
  match findItem cac.items key with
  | some _ => (0, markItemDirty cac key)
  | none =>
    if (checkRange cac.ranges key).isSome then (ENOENT, cac)
    else (ENODATA, cac)

/-- The critical section of `scoutfs_item_update`: swap in the copied
value and re-mark dirty. -/
def updateStep (cac : Cache) (key : Nat) (val : Option (List Nat)) :
    Int × Cache :=
  match findItem cac.items key with
  | some _ =>
    let c := clearItemDirty cac key
    let c := { c with items := setItem c.items key (fun i => { i with val := val }) }
    (0, markItemDirty c key)
  | none =>
    if (checkRange cac.ranges key).isSome then (ENOENT, cac)
    else (ENODATA, cac)

/-- `scoutfs_item_update_dirty()`: in-place value update of an existing
dirty item whose buffer is large enough; `none` is the BUG_ON. -/
def updateDirtyStep (cac : Cache) (key : Nat) (val : Option (List Nat)) :
    Option Cache :=
  let newLen := match val with | some v => v.length | none => 0
  match findItem cac.items key with
  | none => none
  | some it =>
    if !it.dirty || newLen > valLen it then none
    else
      let newVal : Option (List Nat) :=
        match it.val, val with
        | none, _ => none
        | some _, some v => some v
        | some _, none => some []
      let c := { cac with
        items := setItem cac.items key (fun i => { i with val := newVal }) }
      some (updateDirtyCounts c 0 ((newLen : Int) - (valLen it : Int)))

/-- The critical section of `scoutfs_item_delete`. -/
def deleteStep (cac : Cache) (key : Nat) : Int × Cache :=
  match findItem cac.items key with
  | some _ => (0, deleteItem cac key)
  | none =>
    if (checkRange cac.ranges key).isSome then (ENOENT, cac)
    else (ENODATA, cac)

/-- `scoutfs_item_delete_force()`: insert a fresh persistent item with
logical overwrite, mark it dirty, then delete it, leaving a dirty deletion
item without reading first.  `none` is the fatal corruption branch. -/
def deleteForceStep (cac : Cache) (key : Nat) : Option (Int × Cache) :=
  let item := { allocItem key none with persistent := true }
  let p := insertItem cac item true false
  if p.1 = 0 then
    let c := markItemDirty p.2 key
    some (0, deleteItem c key)
  else none

/-- `scoutfs_item_delete_dirty()`. -/
def deleteDirtyStep (cac : Cache) (key : Nat) : Cache :=
  match findItem cac.items key with
  | some _ => deleteItem cac key
  | none => cac

/-- The critical section of `scoutfs_item_delete_save`: unlink the found
item keeping its dirty flag for the caller's list, and leave behind a
correctly persistent deletion item by inserting and deleting a fresh
item. -/
def deleteSaveStep (cac : Cache) (key : Nat) :
    Int × Cache × List CachedItem :=
  match findItem cac.items key with
  | some item =>
    let wasDirty := item.dirty
    let c := unlinkItem cac key
    let saved :=
      if wasDirty then { item with dirty := true } else { item with dirty := false }
    let del := { allocItem key none with persistent := item.persistent }
    let p := insertItem c del false false
    if p.1 = 0 then (0, deleteItem p.2 key, [saved])
    else (0, c, [])
  | none =>
    if (checkRange cac.ranges key).isSome then (ENOENT, cac, [])
    else (ENODATA, cac, [])

/-- The per-item body of `scoutfs_item_restore`: erase any existing cached
item, insert the saved record clean, and re-mark it dirty if it was saved
dirty. -/
def restoreItems : Cache → List CachedItem → Cache
  | cac, [] => cac
  | cac, item :: rest =>
    let wasDirty := item.dirty
    let item := { item with dirty := false }
    let cac :=
      match findItem cac.items item.key with
      | some ex => eraseItem cac ex.key
      | none => cac
    let cac := (insertItem cac item false false).2
    let cac := if wasDirty then markItemDirty cac item.key else cac
    restoreItems cac rest

/-- `scoutfs_item_restore()`: all saved items must be locked and covered by
cached ranges before any is reinstalled. -/
def scoutfs_item_restore (cac : Cache) (list : List CachedItem)
    (lock : Lock) : Int × Cache :=
  if list.isEmpty then (0, cac)
  else if list.all (fun it =>
      lockCoverage lock it.key
        (if it.dirty then LockMode.write else LockMode.read) &&
      (checkRange cac.ranges it.key).isSome) then
    (0, restoreItems cac list)
  else (EINVAL, cac)

/-- `scoutfs_item_delete_save()` with its lock coverage check. -/
def scoutfs_item_delete_save (cac : Cache) (key : Nat) (lock : Lock) :
    Int × Cache × List CachedItem :=
  if !lockCoverage lock key LockMode.write then (EINVAL, cac, [])
  else deleteSaveStep cac key

/-- The per-item work of `scoutfs_item_dirty_seg`, walked over the item
list: the augmented-tree walk `first_dirty`/`next_dirty` enumerates
exactly the dirty items in key order, appends each to the segment, clears
its dirty state (rejoining the lru tail), forces `persistent` and erases
deletion items.  Returns the remaining items, the lru additions in walk
order, the two counter deltas and the appended `(key, value, deletion)`
records. -/
def flushItems :
    List CachedItem →
    List CachedItem × List Nat × Int × Int × List (Nat × Option (List Nat) × Bool)
  | [] => ([], [], 0, 0, [])
  | it :: rest =>
    let (items, lruAdd, di, dv, ents) := flushItems rest
    if it.dirty then
      let ent := (it.key, it.val, it.deletion)
      if it.deletion then
        (items, lruAdd, di - 1, dv - (valLen it : Int), ent :: ents)
      else
        ({ it with dirty := false, persistent := true } :: items,
         it.key :: lruAdd, di - 1, dv - (valLen it : Int), ent :: ents)
    else (it :: items, lruAdd, di, dv, ents)

/-- `scoutfs_item_dirty_seg()`: flush every dirty item to the segment. -/
def flushSeg (cac : Cache) : Cache × List (Nat × Option (List Nat) × Bool) :=
  let (items, lruAdd, di, dv, ents) := flushItems cac.items
  ({ cac with items := items, lru := cac.lru ++ lruAdd,
              nrDirtyItems := cac.nrDirtyItems + di,
              dirtyValBytes := cac.dirtyValBytes + dv }, ents)

/-- `scoutfs_item_invalidate()`: erase every item in the closed range
(collecting the walk's keys first, as the C walk saves `next` before each
erase), then remove the range. -/
def invalidateStep (cac : Cache) (start stop : Nat) : Cache :=
  let ks := (cac.items.filter
      (fun it => start ≤ it.key && it.key ≤ stop)).map (fun it => it.key)
  let c := ks.foldl (fun c k => eraseItem c k) cac
  { c with ranges := removeRange c.ranges ⟨start, stop⟩ }

/-- `rb_next_item`: the in-order successor in the item tree. -/
def rbNextItem (items : List CachedItem) (k : Nat) : Option CachedItem :=
  items.find? (fun it => k < it.key)

/-- `rb_prev_item`: the in-order predecessor in the item tree. -/
def rbPrevItem (items : List CachedItem) (k : Nat) : Option CachedItem :=
  (items.reverse).find? (fun it => it.key < k)

def BOUNDARY_MIN : Nat := 32

def BOUNDARY_MAX : Nat := 300

/-- The walk of `shrink_boundary()`: starting at an item, walk successors
(`right = true`) or predecessors within the range, recording the latest
usable boundary item (one whose key can be shifted by one without crossing
its remaining neighbour) together with that neighbour; stop early past
BOUNDARY_MIN once usable, on a dirty neighbour, or at the range edge
(where the boundary has no remaining neighbour). -/
def shrinkBoundaryGo (items : List CachedItem) (right : Bool) (endKey : Nat) :
    Nat → Nat → CachedItem → Option (CachedItem × Option CachedItem) →
    Option (CachedItem × Option CachedItem)
  | 0, _, _, found => found
  | fuel + 1, i, item, found =>
    match (if right then rbNextItem items item.key
           else rbPrevItem items item.key) with
    | none => some (item, none)
    | some nx =>
      if (if right then decide (endKey < nx.key) else decide (nx.key < endKey)) then
        some (item, none)
      else
        let usable :=
          if right then decide (keyInc item.key ≤ nx.key)
          else decide (nx.key ≤ keyDec item.key)
        let found := if usable then some (item, some nx) else found
        if usable && decide (BOUNDARY_MIN ≤ i) then found
        else if nx.dirty then found
        else shrinkBoundaryGo items right endKey fuel (i + 1) nx found

def shrinkBoundary (items : List CachedItem) (right : Bool) (endKey : Nat)
    (item : CachedItem) : Option (CachedItem × Option CachedItem) :=
  shrinkBoundaryGo items right endKey BOUNDARY_MAX 0 item none

/-- `shrink_around()`: free the items between the found boundaries and
shrink, split or erase the enclosing range so the remaining coverage is
honest.  The split re-purposes the memory of the old boundary item as the
new right-hand range (the C cannot allocate while shrinking).  Returns
the new cache and the number of freed items. -/
def shrinkAround (cac : Cache) (rng : Rng) (item : CachedItem) :
    Cache × Nat :=
  match shrinkBoundary cac.items false rng.start item,
        shrinkBoundary cac.items true rng.stop item with
  | none, _ => (cac, 0)
  | some _, none => (cac, 0)
  | some (first, prev), some (last, next) =>
    if next.isSome && prev.isSome && first == last then (cac, 0)
    else
      let rngEnd := rng.stop
      let shrunkEnd : Rng := { rng with stop := keyDec first.key }
      let shrunkStart : Rng := { rng with start := keyInc last.key }
      let c1 :=
        if prev.isSome then
          { cac with ranges := replaceRng cac.ranges rng shrunkEnd }
        else cac
      let c2 :=
        if next.isSome && !prev.isSome then
          { c1 with ranges := replaceRng c1.ranges rng shrunkStart }
        else c1
      let (c3, newLast, nr0) :=
        if next.isSome && prev.isSome then
          let lastPrev := rbPrevItem cac.items last.key
          let c := unlinkItem c2 last.key
          ({ c with ranges := insertRange c.ranges ⟨keyInc last.key, rngEnd⟩ },
           lastPrev, 1)
        else (c2, some last, 0)
      let c4 :=
        if !prev.isSome && !next.isSome then
          { c3 with ranges := c3.ranges.filter (fun r => r != rng) }
        else c3
      let lastKey := match newLast with | some l => l.key | none => first.key
      let ks := (c4.items.filter
          (fun it => first.key ≤ it.key && it.key ≤ lastKey)).map (fun it => it.key)
      (ks.foldl (fun c k => eraseItem c k) c4, nr0 + ks.length)

/-- The scan loop of `item_lru_shrink()`: pop the lru head, erase it
directly when no range covers it, otherwise shrink around it; items that
cannot make progress rotate to the tail until the first such item comes
around again.  The fuel bounds the modelled iterations; the C loop
terminates by the same progress-or-cycle argument. -/
def shrinkLoop : Nat → Cache → Nat → Option Nat → Cache
  | 0, cac, _, _ => cac
  | fuel + 1, cac, nr, firstMoved =>
    if nr = 0 then cac
    else
      match cac.lru with
      | [] => cac
      | k :: _ =>
        match findItemRaw cac.items k with
        | none => cac
        | some item =>
          if item.dirty then cac
          else
            match checkRange cac.ranges item.key with
            | none => shrinkLoop fuel (eraseItem cac k) (nr - 1) firstMoved
            | some rng =>
              let p := shrinkAround cac rng item
              if p.2 = 0 then
                if firstMoved == some k then cac
                else
                  let fm := match firstMoved with
                    | none => some k
                    | some x => some x
                  shrinkLoop fuel { cac with lru := lruMoveTail cac.lru k } nr fm
              else shrinkLoop fuel p.1 (nr - min nr p.2) firstMoved

/-- `item_lru_shrink()`: scan, then drop every range once the item tree is
empty. -/
def shrinkStep (cac : Cache) (nrToScan : Nat) : Cache :=
  if nrToScan = 0 then cac
  else
    let c := shrinkLoop (2 * cac.lru.length + nrToScan + 2) cac nrToScan none
    if c.items.isEmpty then { c with ranges := [] } else c

/-!
The cache operations, as one type.  Each constructor is one critical
section of the public API (the retry loops interleave these with
`insertBatch` fills performed by the segment reader, so any reachable
cache state is a composition of these steps).
-/

inductive Op where
  | lookup (key : Nat) (buf : Option Nat)
  | next (key last : Nat) (val : Option Nat) (lock : Lock) (fuel : Nat)
  | prev (key first : Nat) (val : Option Nat) (lock : Lock) (fuel : Nat)
  | create (key : Nat) (val : Option (List Nat))
  | createForce (key : Nat) (val : Option (List Nat))
  | insertBatch (list : List (Nat × Option (List Nat))) (start stop : Nat)
  | dirty (key : Nat)
  | update (key : Nat) (val : Option (List Nat))
  | updateDirty (key : Nat) (val : Option (List Nat))
  | delete (key : Nat)
  | deleteForce (key : Nat)
  | deleteDirty (key : Nat)
  | deleteSave (key : Nat)
  | restore (list : List CachedItem) (lock : Lock)
  | flush
  | invalidate (start stop : Nat)
  | shrink (nrToScan : Nat)

/-- Apply one cache operation; fatal (`BUG`) branches leave no observable
post-state and are read as the pre-state. -/
def applyOp (cac : Cache) : Op → Cache
  | Op.lookup key buf => (lookupStep cac key buf).2
  | Op.next key last val lock fuel =>
    match scoutfs_item_next cac key last val lock [] fuel with
    | some (_, _, c, _) => c
    | none => cac
  | Op.prev key first val lock fuel =>
    match scoutfs_item_prev cac key first val lock [] fuel with
    | some (_, _, c, _) => c
    | none => cac
  | Op.create key val => (createStep cac key val).2
  | Op.createForce key val =>
    match createForceStep cac key val with
    | some (_, c) => c
    | none => cac
  | Op.insertBatch list start stop => (insertBatchStep cac list start stop).2
  | Op.dirty key => (dirtyStep cac key).2
  | Op.update key val => (updateStep cac key val).2
  | Op.updateDirty key val =>
    match updateDirtyStep cac key val with
    | some c => c
    | none => cac
  | Op.delete key => (deleteStep cac key).2
  | Op.deleteForce key =>
    match deleteForceStep cac key with
    | some (_, c) => c
    | none => cac
  | Op.deleteDirty key => deleteDirtyStep cac key
  | Op.deleteSave key => (deleteSaveStep cac key).2.1
  | Op.restore list lock => (scoutfs_item_restore cac list lock).2
  | Op.flush => (flushSeg cac).1
  | Op.invalidate start stop => invalidateStep cac start stop
  | Op.shrink nrToScan => shrinkStep cac nrToScan

/-- Items injected by `restore` come from earlier `delete_save` calls and
respect the item representation (deletion items are persistent and carry
no value); every other operation allocates its items itself. -/
def WfOp : Op → Prop
  | Op.restore list _ =>
    ∀ it ∈ list, it.deletion = true → it.persistent = true ∧ it.val = none
  | _ => True

/-!
Invariants and statement vocabulary.
-/

/-- Keys are unique in the item tree (the rbtree replaces rather than
duplicates on an equal key). -/
abbrev NodupKeys (items : List CachedItem) : Prop :=
  (items.map (fun it => it.key)).Nodup

/-- The number of items with the SELF dirty bit set. -/
def countDirty (l : List CachedItem) : Int :=
  ((l.filter (fun it => it.dirty)).length : Int)

/-- The summed `val_len` of the items with the SELF dirty bit set. -/
def sumDirty (l : List CachedItem) : Int :=
  ((l.filter (fun it => it.dirty)).map (fun it => (valLen it : Int))).sum

/-- The dirty-accounting invariant: the running totals match the item
tree. -/
abbrev dirtyInv (cac : Cache) : Prop :=
  cac.nrDirtyItems = countDirty cac.items ∧
  cac.dirtyValBytes = sumDirty cac.items

/-- A deletion item is persistent and carries no value. -/
abbrev tombOk (it : CachedItem) : Prop :=
  it.deletion = true → it.persistent = true ∧ valLen it = 0 ∧ it.val = none

/-- The tombstone invariant over the whole item tree. -/
abbrev tombInv (cac : Cache) : Prop :=
  ∀ it ∈ cac.items, tombOk it

/-- How one flush transforms one item: dirty deletion items disappear,
other dirty items become clean and persistent, clean items stay. -/
def flushXform (it : CachedItem) : Option CachedItem :=
  if it.dirty then
    if it.deletion then none
    else some { it with dirty := false, persistent := true }
  else some it

/-- The persistence inheritance of `insert_item`'s replacement path. -/
def inheritPersistent (ex ins : CachedItem) : CachedItem :=
  if ex.persistent then { ins with persistent := true } else ins

/-!
Basic lemmas about the list primitives.
-/

theorem findItem_eq_some {l : List CachedItem} {k : Nat} {it : CachedItem} :
    findItem l k = some it ↔ findItemRaw l k = some it ∧ it.deletion = false := by
  unfold findItem
  cases h : findItemRaw l k with
  | none => simp
  | some x =>
    by_cases hd : x.deletion <;>
      simp [hd] <;> rintro rfl <;> simp_all

theorem findItemRaw_key {l : List CachedItem} {k : Nat} {it : CachedItem}
    (h : findItemRaw l k = some it) : it.key = k := by
  have := List.find?_some h
  simpa using this

theorem findItemRaw_mem {l : List CachedItem} {k : Nat} {it : CachedItem}
    (h : findItemRaw l k = some it) : it ∈ l :=
  List.mem_of_find?_eq_some h

theorem findItemRaw_eq_none {l : List CachedItem} {k : Nat} :
    findItemRaw l k = none ↔ ∀ x ∈ l, x.key ≠ k := by
  unfold findItemRaw
  rw [List.find?_eq_none]
  simp

theorem insertItem_lo_fst (cac : Cache) (ins : CachedItem) :
    (insertItem cac ins true false).1 = 0 := by
  unfold insertItem
  cases h : findItemRaw cac.items ins.key <;> simp

/-- Claim C9: with `logical_overwrite=true` and `cache_populate=false`,
`insert_item` always succeeds (its "already present" branch is
unreachable), so the fatal corruption branches of
`scoutfs_item_create_force` and `scoutfs_item_delete_force` that are
guarded by its return value can never execute. -/
theorem logical_overwrite_insert_succeeds (cac : Cache) (ins : CachedItem)
    (key : Nat) (val : Option (List Nat)) :
    (insertItem cac ins true false).1 = 0 ∧
    createForceStep cac key val ≠ none ∧
    deleteForceStep cac key ≠ none := by
  refine ⟨insertItem_lo_fst cac ins, ?_, ?_⟩
  · unfold createForceStep
    simp [insertItem_lo_fst]
  · unfold deleteForceStep
    simp [insertItem_lo_fst]

/-- Claim C8: `scoutfs_item_next` called with `key > last` returns ENOENT
before taking the lock: the cache (items, ranges, counters, lru) is
returned untouched and the reader script is unconsumed (no fill). -/
theorem next_past_last_untouched (cac : Cache) (key last : Nat)
    (val : Option Nat) (lock : Lock) (script : Script) (fuel : Nat)
    (h : last < key) :
    scoutfs_item_next cac key last val lock script fuel =
      some (ENOENT, key, cac, script) := by
  have hcond : (if lock.stop < last then lock.stop else last) < key := by
    split
    · exact Nat.lt_trans (by assumption) h
    · exact h
  simp only [scoutfs_item_next]
  rw [if_pos hcond]

theorem itemReferenced_clean {cac : Cache} {key : Nat} {it : CachedItem}
    (hraw : findItemRaw cac.items key = some it) (hclean : it.dirty = false) :
    itemReferenced cac key = { cac with lru := lruMoveTail cac.lru key } := by
  unfold itemReferenced
  rw [hraw]
  simp [hclean]

/-- Claim C10 (corrected): point lookup of a cached non-tombstone item
with a null value buffer succeeds with 0 bytes copied — not the item's
value length — for every such item, dirty or clean.  The claim's further
assertion that the lookup also refreshes the item's lru position is
false of the code: `item_referenced` gates the move on the item's whole
dirty word, so a dirty item (whose word carries the SELF bit, and which
is not on the lru at all) is not moved, and for a clean item the word
additionally carries the rbtree's aggregated subtree-dirty bits, which
skip the move for ancestors of dirty items. -/
theorem lookup_null_buf_returns_zero (cac : Cache) (key : Nat) (lock : Lock)
    (script : Script) (it : CachedItem)
    (hcov : lockCoverage lock key LockMode.read = true)
    (hfind : findItem cac.items key = some it) :
    Option.map Prod.fst (scoutfs_item_lookup cac key none lock script) =
      some 0 ∧
    (valLen it ≠ 0 →
      Option.map Prod.fst (scoutfs_item_lookup cac key none lock script) ≠
        some ((valLen it : Nat) : Int)) := by
  have hstep : scoutfs_item_lookup cac key none lock script =
      some (0, itemReferenced cac key) := by
    unfold scoutfs_item_lookup
    rw [hcov, lookupLoop.eq_def]
    simp [lookupStep, hfind, ENODATA]
  rw [hstep]
  constructor
  · rfl
  · intro hv hcontra
    have h2 : (0 : Int) = ((valLen it : Nat) : Int) :=
      Option.some.inj hcontra
    omega

theorem lookup_null_buf_returns_zero_witness :
    lockCoverage ⟨LockMode.write, 0, 9⟩ 5 LockMode.read = true ∧
    findItem [⟨5, false, false, false, some [1, 2, 3]⟩] 5 =
      some ⟨5, false, false, false, some [1, 2, 3]⟩ ∧
    valLen ⟨5, false, false, false, some [1, 2, 3]⟩ ≠ 0 ∧
    (Option.map Prod.fst (scoutfs_item_lookup
        ⟨[⟨5, false, false, false, some [1, 2, 3]⟩], [⟨0, 9⟩], 0, 0, [5]⟩ 5
        none ⟨LockMode.write, 0, 9⟩ []) = some 0 ∧
     (valLen ⟨5, false, false, false, some [1, 2, 3]⟩ ≠ 0 →
      Option.map Prod.fst (scoutfs_item_lookup
          ⟨[⟨5, false, false, false, some [1, 2, 3]⟩], [⟨0, 9⟩], 0, 0, [5]⟩ 5
          none ⟨LockMode.write, 0, 9⟩ []) ≠
        some ((valLen ⟨5, false, false, false, some [1, 2, 3]⟩ : Nat) :
          Int))) :=
  ⟨by decide, by decide, by decide,
   lookup_null_buf_returns_zero
     ⟨[⟨5, false, false, false, some [1, 2, 3]⟩], [⟨0, 9⟩], 0, 0, [5]⟩ 5
     ⟨LockMode.write, 0, 9⟩ [] ⟨5, false, false, false, some [1, 2, 3]⟩
     (by decide) (by decide)⟩

/-- Counterexample to the lru-refresh half of claim C10, on a path where
the model and the C agree exactly: a cached dirty non-tombstone item is
looked up with a null buffer, the call succeeds with 0 bytes copied, but
the cache comes back unchanged — the item's lru position is not
refreshed (a dirty item's word is nonzero, so `item_referenced` does not
move it, and the item is not on the lru at all). -/
theorem lookup_null_buf_no_lru_refresh :
    findItem [(⟨5, false, false, true, some [1, 2]⟩ : CachedItem)] 5 =
      some ⟨5, false, false, true, some [1, 2]⟩ ∧
    scoutfs_item_lookup
      ⟨[⟨5, false, false, true, some [1, 2]⟩], [⟨0, 9⟩], 1, 2, []⟩ 5 none
      ⟨LockMode.write, 0, 9⟩ [] =
      some (0, ⟨[⟨5, false, false, true, some [1, 2]⟩], [⟨0, 9⟩], 1, 2, []⟩) ∧
    (⟨[⟨5, false, false, true, some [1, 2]⟩], [⟨0, 9⟩], 1, 2, []⟩ :
      Cache).lru ≠
      lruMoveTail
        (⟨[⟨5, false, false, true, some [1, 2]⟩], [⟨0, 9⟩], 1, 2, []⟩ :
          Cache).lru 5 :=
  ⟨by decide, by decide, by decide⟩

theorem lookupLoop_ne_enodata (key : Nat) (buf : Option Nat) :
    ∀ (script : Script) (cac : Cache),
      (∀ p ∈ script, p.1 ≠ ENODATA) → ∀ ret c,
      lookupLoop key buf cac script = some (ret, c) → ret ≠ ENODATA := by
  intro script
  induction script with
  | nil =>
    intro cac _ ret c h
    simp only [lookupLoop] at h
    split at h
    · rename_i hp
      have hne : (lookupStep cac key buf).1 ≠ ENODATA := by simpa using hp
      rw [Option.some.injEq] at h
      have h1 : (lookupStep cac key buf).1 = ret := by rw [h]
      rw [← h1]
      exact hne
    · simp at h
  | cons hd tl ih =>
    intro cac hs ret c h
    simp only [lookupLoop] at h
    split at h
    · rename_i hp
      have hne : (lookupStep cac key buf).1 ≠ ENODATA := by simpa using hp
      rw [Option.some.injEq] at h
      have h1 : (lookupStep cac key buf).1 = ret := by rw [h]
      rw [← h1]
      exact hne
    · by_cases hr : hd.1 = 0
      · rw [hr] at h
        simp only [bne_self_eq_false, Bool.false_eq_true, if_false] at h
        exact ih hd.2 (fun p hp2 => hs p (List.mem_cons_of_mem _ hp2)) ret c h
      · rw [if_pos (by simpa using hr), Option.some.injEq] at h
        have h1 : hd.1 = ret := congrArg Prod.fst h
        rw [← h1]
        exact hs hd (List.mem_cons_self _ _)

theorem findItemRaw_insertSorted_self (l : List CachedItem) (ins : CachedItem)
    (h : ∀ x ∈ l, x.key ≠ ins.key) :
    findItemRaw (insertSorted l ins) ins.key = some ins := by
  induction l with
  | nil => simp [insertSorted, findItemRaw]
  | cons it rest ih =>
    unfold insertSorted
    by_cases hlt : ins.key < it.key
    · simp [hlt, findItemRaw]
    · have hne : it.key ≠ ins.key := h it (List.mem_cons_self _ _)
      simp only [hlt, if_false]
      unfold findItemRaw at ih ⊢
      rw [List.find?_cons_of_neg _ (by simp [hne])]
      exact ih (fun x hx => h x (List.mem_cons_of_mem _ hx))

theorem eraseKey_key_ne (l : List CachedItem) (k : Nat) (hnd : NodupKeys l) :
    ∀ x ∈ eraseKey l k, x.key ≠ k := by
  induction l with
  | nil => simp [eraseKey]
  | cons it rest ih =>
    have hnd' : NodupKeys rest := by
      have := (List.nodup_cons.mp hnd).2
      exact this
    have hmem : it.key ∉ rest.map (fun x => x.key) := (List.nodup_cons.mp hnd).1
    intro x hx
    unfold eraseKey at hx
    by_cases hk : it.key = k
    · rw [if_pos (by simpa using hk)] at hx
      intro hxk
      have hx2 : x.key ∈ rest.map (fun y => y.key) := List.mem_map_of_mem _ hx
      rw [hxk, ← hk] at hx2
      exact hmem hx2
    · rw [if_neg (by simpa using hk)] at hx
      rcases List.mem_cons.mp hx with rfl | hx2
      · exact hk
      · exact ih hnd' x hx2

theorem setItem_key_map (l : List CachedItem) (k : Nat)
    (f : CachedItem → CachedItem) (hf : ∀ y, (f y).key = y.key) :
    (setItem l k f).map (fun x => x.key) = l.map (fun x => x.key) := by
  induction l with
  | nil => simp [setItem]
  | cons it rest ih =>
    unfold setItem
    by_cases hk : it.key == k
    · rw [if_pos hk]
      simp [hf]
    · rw [if_neg hk]
      simp [ih]

theorem clearItemDirty_key_map (cac : Cache) (k : Nat) :
    (clearItemDirty cac k).items.map (fun x => x.key) =
      cac.items.map (fun x => x.key) := by
  unfold clearItemDirty
  cases h : findItemRaw cac.items k with
  | none => rfl
  | some it =>
    by_cases hd : it.dirty
    · simp only [hd, Bool.not_true, Bool.false_eq_true, if_false,
        updateDirtyCounts]
      exact setItem_key_map _ _ _ (fun y => rfl)
    · simp [hd]

theorem eraseItem_items (cac : Cache) (k : Nat) :
    (eraseItem cac k).items = eraseKey (clearItemDirty cac k).items k := rfl

theorem eraseItem_key_ne (cac : Cache) (k : Nat) (hnd : NodupKeys cac.items) :
    ∀ x ∈ (eraseItem cac k).items, x.key ≠ k := by
  rw [eraseItem_items]
  apply eraseKey_key_ne
  unfold NodupKeys
  rw [clearItemDirty_key_map]
  exact hnd

theorem eraseKey_setItem (l : List CachedItem) (k : Nat)
    (f : CachedItem → CachedItem) (hf : ∀ y, (f y).key = y.key) :
    eraseKey (setItem l k f) k = eraseKey l k := by
  induction l with
  | nil => rfl
  | cons it rest ih =>
    by_cases hk : (it.key == k) = true
    · have hfk : ((f it).key == k) = true := by
        rw [beq_iff_eq, hf]
        simpa using hk
      simp [setItem, eraseKey, hk, hfk]
    · simp [setItem, eraseKey, hk, ih]

theorem lruDel_append_self (l : List Nat) (k : Nat) :
    lruDel (l ++ [k]) k = lruDel l k := by
  simp [lruDel]

theorem lruDel_lruDel (l : List Nat) (k : Nat) :
    lruDel (lruDel l k) k = lruDel l k := by
  simp [lruDel, List.filter_filter]

theorem setItem_insertSorted (m : List CachedItem) (it : CachedItem) (k : Nat)
    (f : CachedItem → CachedItem) (hm : ∀ x ∈ m, x.key ≠ k)
    (hit : it.key = k) (hfit : (f it).key = k) :
    setItem (insertSorted m it) k f = insertSorted m (f it) := by
  induction m with
  | nil =>
    unfold insertSorted setItem
    rw [if_pos (by simpa using hit)]
  | cons a as ih =>
    have ha : a.key ≠ k := hm a (List.mem_cons_self _ _)
    unfold insertSorted
    by_cases hlt : it.key < a.key
    · rw [if_pos hlt, if_pos (by rw [hfit, ← hit]; exact hlt)]
      unfold setItem
      rw [if_pos (by simpa using hit)]
    · rw [if_neg hlt, if_neg (by rw [hfit, ← hit]; exact hlt)]
      unfold setItem
      rw [if_neg (by simpa using ha)]
      rw [ih (fun x hx => hm x (List.mem_cons_of_mem _ hx))]

theorem eraseKey_insertSorted (m : List CachedItem) (it : CachedItem) (k : Nat)
    (hm : ∀ x ∈ m, x.key ≠ k) (hit : it.key = k) :
    eraseKey (insertSorted m it) k = m := by
  induction m with
  | nil =>
    unfold insertSorted eraseKey
    rw [if_pos (by simpa using hit)]
  | cons a as ih =>
    have ha : a.key ≠ k := hm a (List.mem_cons_self _ _)
    unfold insertSorted
    by_cases hlt : it.key < a.key
    · rw [if_pos hlt]
      unfold eraseKey
      rw [if_pos (by simpa using hit)]
    · rw [if_neg hlt]
      unfold eraseKey
      rw [if_neg (by simpa using ha)]
      rw [ih (fun x hx => hm x (List.mem_cons_of_mem _ hx))]

theorem findItemRaw_eraseKey_none (l : List CachedItem) (k : Nat)
    (hnd : NodupKeys l) : findItemRaw (eraseKey l k) k = none :=
  findItemRaw_eq_none.mpr (eraseKey_key_ne l k hnd)

theorem clearItemDirty_of_clean (cac : Cache) (k : Nat) (item : CachedItem)
    (hraw : findItemRaw cac.items k = some item) (hd : item.dirty = false) :
    clearItemDirty cac k = cac := by
  unfold clearItemDirty
  rw [hraw]
  simp [hd]

theorem markItemDirty_of_dirty (cac : Cache) (k : Nat) (item : CachedItem)
    (hraw : findItemRaw cac.items k = some item) (hd : item.dirty = true) :
    markItemDirty cac k = cac := by
  unfold markItemDirty
  rw [hraw]
  simp [hd]

theorem clearItemDirty_of_dirty (cac : Cache) (k : Nat) (item : CachedItem)
    (hraw : findItemRaw cac.items k = some item) (hd : item.dirty = true) :
    clearItemDirty cac k =
      ⟨setItem cac.items k (fun i => { i with dirty := false }), cac.ranges,
       cac.nrDirtyItems - 1, cac.dirtyValBytes - (valLen item : Int),
       lruAddTail cac.lru k⟩ := by
  unfold clearItemDirty updateDirtyCounts
  rw [hraw]
  simp [hd]
  constructor
  · ring
  · ring

theorem markItemDirty_of_clean (cac : Cache) (k : Nat) (item : CachedItem)
    (hraw : findItemRaw cac.items k = some item) (hd : item.dirty = false) :
    markItemDirty cac k =
      ⟨setItem cac.items k (fun i => { i with dirty := true }), cac.ranges,
       cac.nrDirtyItems + 1, cac.dirtyValBytes + (valLen item : Int),
       lruDel cac.lru k⟩ := by
  unfold markItemDirty updateDirtyCounts
  rw [hraw]
  simp [hd]

theorem unlinkItem_spec (cac : Cache) (k : Nat) (item : CachedItem)
    (hraw : findItemRaw cac.items k = some item) :
    unlinkItem cac k =
      ⟨eraseKey cac.items k, cac.ranges,
       cac.nrDirtyItems - (if item.dirty then 1 else 0),
       cac.dirtyValBytes - (if item.dirty then (valLen item : Int) else 0),
       lruDel cac.lru k⟩ := by
  unfold unlinkItem
  by_cases hd : item.dirty
  · rw [clearItemDirty_of_dirty cac k item hraw hd]
    simp [hd]
    exact ⟨eraseKey_setItem cac.items k _ (fun y => rfl),
      lruDel_append_self cac.lru k⟩
  · rw [clearItemDirty_of_clean cac k item hraw (by simpa using hd)]
    simp [hd]

theorem insertItem_none_spec (c : Cache) (ins : CachedItem)
    (hnone : findItemRaw c.items ins.key = none) :
    insertItem c ins false false =
      (0, ⟨insertSorted c.items ins, c.ranges, c.nrDirtyItems,
           c.dirtyValBytes, lruAddTail c.lru ins.key⟩) := by
  unfold insertItem linkItem
  rw [hnone]

theorem saved_dirty_eta (item : CachedItem) :
    (if item.dirty = true then { item with dirty := true }
     else { item with dirty := false }) = item := by
  rcases item with ⟨a, b, c, d, e⟩
  by_cases hdd : d <;> simp [hdd]

theorem set_dirty_true_eta (item : CachedItem) (h : item.dirty = true) :
    CachedItem.mk item.key item.deletion item.persistent true item.val = item := by
  rcases item with ⟨a, b, c, d, e⟩
  simp_all

theorem clear_dirty_eta (item : CachedItem) (h : item.dirty = false) :
    CachedItem.mk item.key item.deletion item.persistent false item.val = item := by
  rcases item with ⟨a, b, c, d, e⟩
  simp_all

theorem set_persistent_eta (item : CachedItem) (h : item.persistent = true) :
    CachedItem.mk item.key item.deletion true item.dirty item.val = item := by
  rcases item with ⟨a, b, c, d, e⟩
  simp_all

theorem countDirty_cons (it : CachedItem) (rest : List CachedItem) :
    countDirty (it :: rest) =
      (if it.dirty then 1 else 0) + countDirty rest := by
  unfold countDirty
  by_cases hd : it.dirty <;> simp [hd, List.filter_cons] <;> push_cast <;> ring

theorem sumDirty_cons (it : CachedItem) (rest : List CachedItem) :
    sumDirty (it :: rest) =
      (if it.dirty then (valLen it : Int) else 0) + sumDirty rest := by
  unfold sumDirty
  by_cases hd : it.dirty <;> simp [hd, List.filter_cons]

theorem flushItems_spec (l : List CachedItem) :
    flushItems l =
      (l.filterMap flushXform,
       (l.filter (fun it => it.dirty && !it.deletion)).map (fun it => it.key),
       -(countDirty l), -(sumDirty l),
       (l.filter (fun it => it.dirty)).map
         (fun it => (it.key, it.val, it.deletion))) := by
  induction l with
  | nil => simp [flushItems, countDirty, sumDirty]
  | cons it rest ih =>
    unfold flushItems
    rw [ih]
    rw [countDirty_cons, sumDirty_cons]
    by_cases hd : it.dirty
    · by_cases hdel : it.deletion
      · simp [hd, hdel, flushXform, List.filter_cons]
        constructor
        · ring
        · first
          | ring
          | trivial
      · simp [hd, hdel, flushXform, List.filter_cons]
        constructor
        · ring
        · ring
    · simp [hd, flushXform, List.filter_cons]

theorem filterMap_flushXform_clean (l : List CachedItem)
    (h : ∀ x ∈ l, x.dirty = false) : l.filterMap flushXform = l := by
  induction l with
  | nil => rfl
  | cons it rest ih =>
    have hit := h it (List.mem_cons_self _ _)
    rw [List.filterMap_cons]
    rw [show flushXform it = some it by simp [flushXform, hit]]
    rw [ih (fun x hx => h x (List.mem_cons_of_mem _ hx))]

theorem countDirty_clean (l : List CachedItem)
    (h : ∀ x ∈ l, x.dirty = false) : countDirty l = 0 := by
  unfold countDirty
  rw [List.filter_eq_nil.mpr (by simpa using h)]
  rfl

theorem sumDirty_clean (l : List CachedItem)
    (h : ∀ x ∈ l, x.dirty = false) : sumDirty l = 0 := by
  unfold sumDirty
  rw [List.filter_eq_nil.mpr (by simpa using h)]
  rfl

theorem filter_dirty_clean (l : List CachedItem)
    (h : ∀ x ∈ l, x.dirty = false) (p : CachedItem → Bool)
    (hp : ∀ x, x.dirty = false → p x = false) : l.filter p = [] := by
  rw [List.filter_eq_nil]
  intro a ha
  simp [hp a (h a ha)]

theorem flushSeg_clean (c : Cache) (h : ∀ x ∈ c.items, x.dirty = false) :
    flushSeg c = (c, []) := by
  unfold flushSeg
  rw [flushItems_spec]
  simp [filterMap_flushXform_clean _ h, countDirty_clean _ h, sumDirty_clean _ h,
    filter_dirty_clean _ h (fun it => it.dirty && !it.deletion)
      (fun x hx => by simp [hx]),
    filter_dirty_clean _ h (fun it => it.dirty) (fun x hx => hx)]

/-- Claim C6: after `scoutfs_item_dirty_seg`, every formerly dirty
non-tombstone item is clean with `persistent=true`, every dirty tombstone
has been erased, no dirty item remains, the dirty count is zero, and a
second flush immediately afterwards changes nothing and appends nothing to
the segment. -/
theorem flush_to_segment_spec (cac : Cache) (hinv : dirtyInv cac) :
    ((flushSeg cac).1.items = cac.items.filterMap flushXform) ∧
    (∀ it ∈ cac.items, it.dirty = true → it.deletion = false →
      ({ it with dirty := false, persistent := true } : CachedItem) ∈
        (flushSeg cac).1.items) ∧
    (∀ it ∈ cac.items, it.dirty = true → it.deletion = true →
      it ∉ (flushSeg cac).1.items) ∧
    ((flushSeg cac).1.nrDirtyItems = 0) ∧
    (flushSeg ((flushSeg cac).1) = ((flushSeg cac).1, [])) := by
  have hitems : (flushSeg cac).1.items = cac.items.filterMap flushXform := by
    unfold flushSeg
    rw [flushItems_spec]
  have hallclean : ∀ x ∈ cac.items.filterMap flushXform, x.dirty = false := by
    intro x hx
    rcases List.mem_filterMap.mp hx with ⟨orig, _, hfx⟩
    unfold flushXform at hfx
    by_cases hd : orig.dirty
    · rw [if_pos hd] at hfx
      by_cases hdel : orig.deletion
      · rw [if_pos hdel] at hfx
        exact absurd hfx (by simp)
      · rw [if_neg hdel, Option.some.injEq] at hfx
        rw [← hfx]
    · rw [if_neg hd, Option.some.injEq] at hfx
      rw [← hfx]
      simpa using hd
  refine ⟨hitems, ?_, ?_, ?_, ?_⟩
  · intro it hmem hd hdel
    rw [hitems]
    exact List.mem_filterMap.mpr ⟨it, hmem, by simp [flushXform, hd, hdel]⟩
  · intro it _ hd _ hmem2
    rw [hitems] at hmem2
    exact absurd (hallclean it hmem2) (by simp [hd])
  · have hnr : (flushSeg cac).1.nrDirtyItems =
        cac.nrDirtyItems + -(countDirty cac.items) := by
      unfold flushSeg
      rw [flushItems_spec]
    rw [hnr, hinv.1]
    ring
  · have hclean : ∀ x ∈ (flushSeg cac).1.items, x.dirty = false := by
      rw [hitems]
      exact hallclean
    exact flushSeg_clean _ hclean

theorem flush_to_segment_spec_witness :
    dirtyInv ⟨[⟨3, false, false, true, some [1, 2]⟩, ⟨4, true, true, true, none⟩],
      [⟨0, 9⟩], 2, 2, []⟩ ∧
    (flushSeg ⟨[⟨3, false, false, true, some [1, 2]⟩, ⟨4, true, true, true, none⟩],
      [⟨0, 9⟩], 2, 2, []⟩).1.items =
      [⟨3, false, false, true, some [1, 2]⟩,
       ⟨4, true, true, true, none⟩].filterMap flushXform ∧
    (flushSeg ⟨[⟨3, false, false, true, some [1, 2]⟩, ⟨4, true, true, true, none⟩],
      [⟨0, 9⟩], 2, 2, []⟩).1.nrDirtyItems = 0 :=
  ⟨by decide,
   (flush_to_segment_spec
     ⟨[⟨3, false, false, true, some [1, 2]⟩, ⟨4, true, true, true, none⟩],
      [⟨0, 9⟩], 2, 2, []⟩ (by decide)).1,
   (flush_to_segment_spec
     ⟨[⟨3, false, false, true, some [1, 2]⟩, ⟨4, true, true, true, none⟩],
      [⟨0, 9⟩], 2, 2, []⟩ (by decide)).2.2.2.1⟩

theorem overlapsB_iff (a b : Rng) :
    overlapsB a b = true ↔ a.start ≤ b.stop ∧ b.start ≤ a.stop := by
  unfold overlapsB cmpRanges
  by_cases h1 : a.stop < b.start
  · rw [if_pos h1]
    constructor
    · intro h
      exact absurd h (by decide)
    · intro h
      exact absurd h.2 (by omega)
  · rw [if_neg h1]
    by_cases h2 : b.stop < a.start
    · rw [if_pos h2]
      constructor
      · intro h
        exact absurd h (by decide)
      · intro h
        exact absurd h.1 (by omega)
    · rw [if_neg h2]
      constructor
      · intro _
        omega
      · intro _
        rfl

theorem overlapsB_false_iff (a b : Rng) :
    overlapsB a b = false ↔ ¬(a.start ≤ b.stop ∧ b.start ≤ a.stop) := by
  rw [Bool.eq_false_iff, Ne, overlapsB_iff]

theorem removeRangeGo_step (fuel : Nat) (ranges : List Rng) (rem : Rng)
    (insFlag : Bool) :
    removeRangeGo (fuel + 1) ranges rem insFlag =
      match ranges.find? (fun rng => overlapsB rem rng) with
      | none => if insFlag then insertSortedRng ranges rem else ranges
      | some rng =>
        if rng.start < rem.start && rem.stop < rng.stop then
          removeRangeGo fuel
            (replaceRng ranges rng { rng with stop := keyDec rem.start })
            { start := keyInc rem.stop, stop := rng.stop } true
        else if rem.start < rng.start && rem.stop < rng.stop then
          removeRangeGo fuel
            (replaceRng ranges rng { rng with start := keyInc rem.stop })
            { rem with stop := rng.start } insFlag
        else if rng.start < rem.start && rng.stop < rem.stop then
          removeRangeGo fuel
            (replaceRng ranges rng { rng with stop := keyDec rem.start })
            { rem with start := rng.stop } insFlag
        else
          removeRangeGo fuel (ranges.filter (fun r => r != rng)) rem insFlag :=
  rfl

theorem find_first_overlap (pre post : List Rng) (rem rng : Rng)
    (hpre : ∀ r ∈ pre, overlapsB rem r = false)
    (hr : overlapsB rem rng = true) :
    (pre ++ rng :: post).find? (fun r => overlapsB rem r) = some rng := by
  induction pre with
  | nil => simpa using List.find?_cons_of_pos _ hr
  | cons a as ih =>
    rw [List.cons_append,
      List.find?_cons_of_neg _ (by simp [hpre a (List.mem_cons_self _ _)])]
    exact ih (fun r hrr => hpre r (List.mem_cons_of_mem _ hrr))

theorem mem_insertSortedRng (l : List Rng) (r x : Rng) :
    x ∈ insertSortedRng l r ↔ x ∈ l ∨ x = r := by
  induction l with
  | nil => simp [insertSortedRng]
  | cons a as ih =>
    unfold insertSortedRng
    split
    · simp
      tauto
    · simp [ih]
      tauto

/-- Claim C5: removing an interval strictly interior to a cached range
splits it: `remove_range` replaces the enclosing range by exactly the two
ranges `[rng.start, rem.start - 1]` and `[rem.end + 1, rng.end]`, the
boundaries moved by the key decrement and increment primitives. -/
theorem remove_range_interior_split (ranges : List Rng) (rng rem : Rng)
    (hmem : rng ∈ ranges)
    (hdisj : List.Pairwise (fun a b => overlapsB a b = false) ranges)
    (h1 : rng.start < rem.start) (h2 : rem.stop < rng.stop)
    (h3 : rem.start ≤ rem.stop) :
    removeRange ranges rem =
      insertSortedRng (replaceRng ranges rng ⟨rng.start, keyDec rem.start⟩)
        ⟨keyInc rem.stop, rng.stop⟩ ∧
    Rng.mk rng.start (keyDec rem.start) ∈ removeRange ranges rem ∧
    Rng.mk (keyInc rem.stop) rng.stop ∈ removeRange ranges rem := by
  have hself : overlapsB rem rng = true := by
    rw [overlapsB_iff]
    omega
  obtain ⟨pre, post, rfl⟩ := List.append_of_mem hmem
  obtain ⟨hdpre, hdpost, hcross⟩ := List.pairwise_append.mp hdisj
  have hpost : ∀ r ∈ post, overlapsB rng r = false := (List.pairwise_cons.mp hdpost).1
  have hpre : ∀ r ∈ pre, overlapsB r rng = false := fun r hr =>
    hcross r hr rng (List.mem_cons_self _ _)
  have hpreNo : ∀ r ∈ pre, overlapsB rem r = false := by
    intro r hr
    have hd := (overlapsB_false_iff _ _).mp (hpre r hr)
    rw [overlapsB_false_iff]
    omega
  have heq : removeRange (pre ++ rng :: post) rem =
      insertSortedRng
        (replaceRng (pre ++ rng :: post) rng ⟨rng.start, keyDec rem.start⟩)
        ⟨keyInc rem.stop, rng.stop⟩ := by
    unfold removeRange
    rw [show (pre ++ rng :: post).length + 2 =
        ((pre ++ rng :: post).length + 1) + 1 from rfl]
    rw [removeRangeGo_step]
    rw [find_first_overlap pre post rem rng hpreNo hself]
    simp only []
    rw [if_pos (by simp [h1, h2])]
    rw [removeRangeGo_step]
    have hnone : ∀ x ∈ replaceRng (pre ++ rng :: post) rng
        { rng with stop := keyDec rem.start },
        ¬ (overlapsB { start := keyInc rem.stop, stop := rng.stop : Rng} x = true) := by
      intro x hx
      rcases List.mem_map.mp hx with ⟨orig, horig, rfl⟩
      by_cases horng : orig = rng
      · subst horng
        rw [if_pos (by simp)]
        rw [overlapsB_iff]
        simp only [keyInc, keyDec]
        omega
      · rw [if_neg (by simpa using horng)]
        have hdo : ¬(orig.start ≤ rng.stop ∧ rng.start ≤ orig.stop) := by
          rcases List.mem_append.mp horig with hin | hin
          · have hf := hpre orig hin
            rw [overlapsB_false_iff] at hf
            exact hf
          · rcases List.mem_cons.mp hin with heq2 | hin2
            · exact absurd heq2 horng
            · have hf := hpost orig hin2
              rw [overlapsB_false_iff] at hf
              omega
        rw [overlapsB_iff]
        simp only [keyInc]
        omega
    rw [List.find?_eq_none.mpr hnone]
    simp
  refine ⟨heq, ?_, ?_⟩
  · rw [heq, mem_insertSortedRng]
    left
    exact List.mem_map.mpr ⟨rng, List.mem_append.mpr (Or.inr (List.mem_cons_self _ _)),
      by simp⟩
  · rw [heq, mem_insertSortedRng]
    right
    rfl

theorem remove_range_interior_split_witness :
    (Rng.mk 0 9 ∈ [Rng.mk 0 9] ∧ (0 : Nat) < 3 ∧ (5 : Nat) < 9 ∧ (3 : Nat) ≤ 5) ∧
    removeRange [Rng.mk 0 9] (Rng.mk 3 5) =
      insertSortedRng (replaceRng [Rng.mk 0 9] (Rng.mk 0 9) ⟨0, keyDec 3⟩)
        ⟨keyInc 5, 9⟩ ∧
    Rng.mk 0 (keyDec 3) ∈ removeRange [Rng.mk 0 9] (Rng.mk 3 5) ∧
    Rng.mk (keyInc 5) 9 ∈ removeRange [Rng.mk 0 9] (Rng.mk 3 5) :=
  ⟨⟨by decide, by decide, by decide, by decide⟩,
   remove_range_interior_split [Rng.mk 0 9] (Rng.mk 0 9) (Rng.mk 3 5)
     (by decide) (by decide) (by decide) (by decide) (by decide)⟩

/-- Claim C1: the three insertion modes of `insert_item`.  With
`cache_populate` any existing item (tombstone or not) fails with EEXIST;
with `logical_overwrite` an existing item is erased and the insertion
relinked, inheriting `persistent`; by default only a tombstone is
erased-and-replaced (inheriting `persistent`) and any other existing item
fails with EEXIST.  Whenever the insertion succeeds the inserted item is
found in the map afterwards. -/
theorem insert_item_modes (cac : Cache) (ins : CachedItem) (lo cp : Bool)
    (hnd : NodupKeys cac.items) :
    (cp = true → ∀ ex, findItemRaw cac.items ins.key = some ex →
      insertItem cac ins lo cp = (EEXIST, cac)) ∧
    (lo = true → cp = false → ∀ ex, findItemRaw cac.items ins.key = some ex →
      insertItem cac ins lo cp =
        (0, linkItem (eraseItem cac ins.key) (inheritPersistent ex ins)) ∧
      (ex.persistent = true → (inheritPersistent ex ins).persistent = true)) ∧
    (lo = false → cp = false → ∀ ex, findItemRaw cac.items ins.key = some ex →
      (ex.deletion = true →
        insertItem cac ins lo cp =
          (0, linkItem (eraseItem cac ins.key) (inheritPersistent ex ins))) ∧
      (ex.deletion = false → insertItem cac ins lo cp = (EEXIST, cac))) ∧
    ((insertItem cac ins lo cp).1 = 0 →
      ∃ it, findItemRaw (insertItem cac ins lo cp).2.items ins.key = some it ∧
        it.key = ins.key ∧ it.deletion = ins.deletion ∧ it.dirty = ins.dirty ∧
        it.val = ins.val) := by
  refine ⟨?_, ?_, ?_, ?_⟩
  · intro hcp ex hex
    subst hcp
    unfold insertItem
    rw [hex]
    simp
  · intro hlo hcp ex hex
    subst hlo; subst hcp
    have hk : ex.key = ins.key := findItemRaw_key hex
    constructor
    · unfold insertItem
      rw [hex]
      simp [inheritPersistent, hk]
    · intro hp
      simp [inheritPersistent, hp]
  · intro hlo hcp ex hex
    subst hlo; subst hcp
    have hk : ex.key = ins.key := findItemRaw_key hex
    constructor
    · intro hdel
      unfold insertItem
      rw [hex]
      simp [inheritPersistent, hk, hdel]
    · intro hdel
      unfold insertItem
      rw [hex]
      simp [hdel]
  · intro h0
    cases hex : findItemRaw cac.items ins.key with
    | none =>
      have heq : insertItem cac ins lo cp = (0, linkItem cac ins) := by
        unfold insertItem
        rw [hex]
      refine ⟨ins, ?_, rfl, rfl, rfl, rfl⟩
      rw [heq]
      exact findItemRaw_insertSorted_self _ _ (findItemRaw_eq_none.mp hex)
    | some ex =>
      have hk : ex.key = ins.key := findItemRaw_key hex
      by_cases hc : (cp || (!ex.deletion && !lo)) = true
      · have heq : insertItem cac ins lo cp = (EEXIST, cac) := by
          unfold insertItem
          rw [hex]
          simp [hc]
        rw [heq] at h0
        simp [EEXIST] at h0
      · have heq : insertItem cac ins lo cp =
            (0, linkItem (eraseItem cac ex.key) (inheritPersistent ex ins)) := by
          unfold insertItem
          rw [hex]
          simp [hc, inheritPersistent]
        have hne : ∀ x ∈ (eraseItem cac ex.key).items, x.key ≠ ins.key := by
          rw [← hk]
          exact eraseItem_key_ne cac ex.key hnd
        refine ⟨inheritPersistent ex ins, ?_, ?_, ?_, ?_, ?_⟩
        · rw [heq]
          show findItemRaw
            (insertSorted (eraseItem cac ex.key).items (inheritPersistent ex ins))
            ins.key = some (inheritPersistent ex ins)
          have hkey : (inheritPersistent ex ins).key = ins.key := by
            unfold inheritPersistent
            split <;> rfl
          rw [← hkey]
          apply findItemRaw_insertSorted_self
          rw [hkey]
          exact hne
        all_goals unfold inheritPersistent
        all_goals split <;> rfl

theorem insert_item_modes_witness :
    NodupKeys [⟨5, true, true, false, none⟩] ∧
    ((insertItem ⟨[⟨5, true, true, false, none⟩], [], 0, 0, [5]⟩
        (allocItem 5 (some [7])) false false).1 = 0 →
      ∃ it, findItemRaw (insertItem ⟨[⟨5, true, true, false, none⟩], [], 0, 0, [5]⟩
          (allocItem 5 (some [7])) false false).2.items (allocItem 5 (some [7])).key =
            some it ∧
        it.key = (allocItem 5 (some [7])).key ∧
        it.deletion = (allocItem 5 (some [7])).deletion ∧
        it.dirty = (allocItem 5 (some [7])).dirty ∧
        it.val = (allocItem 5 (some [7])).val) :=
  ⟨by decide,
   (insert_item_modes ⟨[⟨5, true, true, false, none⟩], [], 0, 0, [5]⟩
     (allocItem 5 (some [7])) false false (by decide)).2.2.2⟩

theorem findItemRaw_setItem (l : List CachedItem) (k : Nat)
    (f : CachedItem → CachedItem) (y : CachedItem)
    (hraw : findItemRaw l k = some y) (hf : (f y).key = y.key) :
    findItemRaw (setItem l k f) k = some (f y) := by
  induction l with
  | nil => simp [findItemRaw] at hraw
  | cons it rest ih =>
    unfold findItemRaw at hraw ih ⊢
    by_cases hk : (it.key == k) = true
    · rw [List.find?_cons_of_pos _ (by simpa using hk)] at hraw
      unfold setItem
      rw [if_pos hk]
      rw [Option.some.injEq] at hraw
      subst hraw
      exact List.find?_cons_of_pos _ (by rw [beq_iff_eq, hf]; simpa using hk)
    · rw [List.find?_cons_of_neg _ (by simpa using hk)] at hraw
      unfold setItem
      rw [if_neg hk]
      rw [List.find?_cons_of_neg _ (by simpa using hk)]
      exact ih hraw

theorem deleteItem_persistent_spec (c : Cache) (k : Nat) (it : CachedItem)
    (hraw : findItemRaw c.items k = some it) (hp : it.persistent = true)
    (hd : it.dirty = false) :
    deleteItem c k =
      ⟨setItem (setItem c.items k
          (fun i => { i with val := none, deletion := true })) k
         (fun i => { i with dirty := true }),
       c.ranges, c.nrDirtyItems + 1, c.dirtyValBytes + 0, lruDel c.lru k⟩ := by
  have hraw2 : findItemRaw
      (setItem c.items k (fun i => { i with val := none, deletion := true })) k =
      some { it with val := none, deletion := true } :=
    findItemRaw_setItem _ _ _ _ hraw rfl
  unfold deleteItem
  rw [hraw]
  simp only [hp, Bool.not_true, Bool.false_eq_true, if_false]
  rw [clearItemDirty_of_clean c k it hraw hd]
  rw [markItemDirty_of_clean
    ⟨setItem c.items k (fun i => { i with val := none, deletion := true }),
     c.ranges, c.nrDirtyItems, c.dirtyValBytes, c.lru⟩ k
    { it with val := none, deletion := true } hraw2 (by simpa using hd)]
  simp [valLen]

theorem deleteItem_nonpersistent_spec (c : Cache) (k : Nat) (it : CachedItem)
    (hraw : findItemRaw c.items k = some it) (hp : it.persistent = false) :
    deleteItem c k = eraseItem c k := by
  unfold deleteItem
  rw [hraw]
  simp [hp]

theorem insertItem_replace_spec (c : Cache) (ins ex : CachedItem)
    (hraw : findItemRaw c.items ins.key = some ex) (hdel : ex.deletion = true) :
    insertItem c ins false false =
      (0, linkItem (eraseItem c ex.key)
        (if ex.persistent then { ins with persistent := true } else ins)) := by
  unfold insertItem
  rw [hraw]
  simp [hdel]

theorem restoreItems_nil (c : Cache) : restoreItems c [] = c := rfl

theorem restore_single (c1 : Cache) (item : CachedItem) (lock : Lock)
    (hcov' : lockCoverage lock item.key
      (if item.dirty then LockMode.write else LockMode.read) = true)
    (hrng' : (checkRange c1.ranges item.key).isSome = true) :
    scoutfs_item_restore c1 [item] lock = (0, restoreItems c1 [item]) := by
  unfold scoutfs_item_restore
  rw [if_neg (by simp)]
  rw [if_pos (by simp [hcov', hrng'])]

/-- Claim C7: `delete_save(k)` followed by `restore` of the saved list
reinstalls an item at `k` bit-identical to the original, including its
dirty flag, and the dirty accounting (`nr_dirty_items`, `dirty_val_bytes`)
is unchanged end-to-end — in particular when the original item was
dirty. -/
theorem delete_save_restore_roundtrip (cac : Cache) (k : Nat) (lock : Lock)
    (item : CachedItem)
    (hnd : NodupKeys cac.items)
    (hfind : findItem cac.items k = some item)
    (hcov : lockCoverage lock k LockMode.write = true)
    (hrng : (checkRange cac.ranges k).isSome = true) :
    (deleteSaveStep cac k).1 = 0 ∧
    (deleteSaveStep cac k).2.2 = [item] ∧
    (scoutfs_item_restore (deleteSaveStep cac k).2.1 [item] lock).1 = 0 ∧
    findItemRaw
      (scoutfs_item_restore (deleteSaveStep cac k).2.1 [item] lock).2.items k =
      some item ∧
    (scoutfs_item_restore (deleteSaveStep cac k).2.1 [item] lock).2.nrDirtyItems =
      cac.nrDirtyItems ∧
    (scoutfs_item_restore (deleteSaveStep cac k).2.1 [item] lock).2.dirtyValBytes =
      cac.dirtyValBytes := by
  obtain ⟨hraw, hdel⟩ := findItem_eq_some.mp hfind
  have hk : item.key = k := findItemRaw_key hraw
  have hne : ∀ x ∈ eraseKey cac.items k, x.key ≠ k := eraseKey_key_ne _ _ hnd
  have hnone : findItemRaw (eraseKey cac.items k) k = none :=
    findItemRaw_eraseKey_none _ _ hnd
  have hmode : lock.mode = LockMode.write := by
    cases hm : lock.mode <;> simp [lockCoverage, hm] at hcov <;> rfl
  have hrange : (cmpRanges k k lock.start lock.stop == Ordering.eq) = true :=
    (Bool.and_eq_true _ _ |>.mp hcov).2
  have hcovr : lockCoverage lock k LockMode.read = true := by
    unfold lockCoverage
    rw [hmode, hrange]
    rfl
  have hcovw : lockCoverage lock k LockMode.write = true := hcov
  -- the state left by delete_save, before the tombstone bookkeeping
  have hIns := insertItem_none_spec
      ⟨eraseKey cac.items k, cac.ranges,
       cac.nrDirtyItems - (if item.dirty then 1 else 0),
       cac.dirtyValBytes - (if item.dirty then (valLen item : Int) else 0),
       lruDel cac.lru k⟩
      ⟨k, false, item.persistent, false, none⟩ hnone
  have hA : deleteSaveStep cac k =
      (0, deleteItem
        ⟨insertSorted (eraseKey cac.items k) ⟨k, false, item.persistent, false, none⟩,
         cac.ranges,
         cac.nrDirtyItems - (if item.dirty then 1 else 0),
         cac.dirtyValBytes - (if item.dirty then (valLen item : Int) else 0),
         lruAddTail (lruDel cac.lru k) k⟩ k, [item]) := by
    unfold deleteSaveStep
    rw [hfind]
    simp only [saved_dirty_eta, allocItem]
    rw [unlinkItem_spec cac k item hraw]
    rw [hIns]
    simp
  have hfindW : findItemRaw
      (insertSorted (eraseKey cac.items k) ⟨k, false, item.persistent, false, none⟩)
      k = some ⟨k, false, item.persistent, false, none⟩ := by
    have := findItemRaw_insertSorted_self (eraseKey cac.items k)
      ⟨k, false, item.persistent, false, none⟩ (by simpa using hne)
    simpa using this
  have hcov2 : lockCoverage lock item.key
      (if item.dirty then LockMode.write else LockMode.read) = true := by
    rw [hk]
    by_cases hdd : item.dirty <;> simp [hdd, hcovw, hcovr]
  have hk' : ({ item with dirty := false } : CachedItem).key = k := hk
  have hnmem : ∀ x ∈ eraseKey cac.items k, x.key ≠ item.key := by
    intro x hx
    rw [hk]
    exact hne x hx
  have hfindFin : findItemRaw
      (insertSorted (eraseKey cac.items k) item) k = some item := by
    have := findItemRaw_insertSorted_self (eraseKey cac.items k) item hnmem
    rw [hk] at this
    exact this
  rw [hA]
  by_cases hpers : item.persistent = true
  · rw [hpers] at hA hfindW ⊢
    have hfdel : setItem
        (insertSorted (eraseKey cac.items k) ⟨k, false, true, false, none⟩) k
        (fun i => { i with val := none, deletion := true }) =
        insertSorted (eraseKey cac.items k) ⟨k, true, true, false, none⟩ := by
      have := setItem_insertSorted (eraseKey cac.items k)
        ⟨k, false, true, false, none⟩ k
        (fun i => { i with val := none, deletion := true }) hne rfl rfl
      simpa using this
    have hfmark : setItem
        (insertSorted (eraseKey cac.items k) ⟨k, true, true, false, none⟩) k
        (fun i => { i with dirty := true }) =
        insertSorted (eraseKey cac.items k) ⟨k, true, true, true, none⟩ := by
      have := setItem_insertSorted (eraseKey cac.items k)
        ⟨k, true, true, false, none⟩ k
        (fun i => { i with dirty := true }) hne rfl rfl
      simpa using this
    have hfindMD : findItemRaw
        (insertSorted (eraseKey cac.items k) ⟨k, true, true, true, none⟩) k =
        some ⟨k, true, true, true, none⟩ := by
      have := findItemRaw_insertSorted_self (eraseKey cac.items k)
        ⟨k, true, true, true, none⟩ hne
      simpa using this
    have hB : deleteItem
        (⟨insertSorted (eraseKey cac.items k) ⟨k, false, true, false, none⟩,
          cac.ranges,
          cac.nrDirtyItems - (if item.dirty then 1 else 0),
          cac.dirtyValBytes - (if item.dirty then (valLen item : Int) else 0),
          lruAddTail (lruDel cac.lru k) k⟩ : Cache) k =
        ⟨insertSorted (eraseKey cac.items k) ⟨k, true, true, true, none⟩,
         cac.ranges,
         cac.nrDirtyItems - (if item.dirty then 1 else 0) + 1,
         cac.dirtyValBytes - (if item.dirty then (valLen item : Int) else 0),
         lruDel cac.lru k⟩ := by
      rw [deleteItem_persistent_spec
        ⟨insertSorted (eraseKey cac.items k) ⟨k, false, true, false, none⟩,
         cac.ranges,
         cac.nrDirtyItems - (if item.dirty then 1 else 0),
         cac.dirtyValBytes - (if item.dirty then (valLen item : Int) else 0),
         lruAddTail (lruDel cac.lru k) k⟩ k
        ⟨k, false, true, false, none⟩ hfindW rfl rfl]
      simp [hfdel, hfmark, lruAddTail, lruDel_append_self, lruDel_lruDel]
    rw [hB]
    have hfindC1none : findItem
        (insertSorted (eraseKey cac.items k) ⟨k, true, true, true, none⟩)
        item.key = none := by
      unfold findItem
      rw [hk, hfindMD]
      simp
    have hEr : eraseItem
        (⟨insertSorted (eraseKey cac.items k) ⟨k, true, true, true, none⟩,
          cac.ranges,
          cac.nrDirtyItems - (if item.dirty then 1 else 0) + 1,
          cac.dirtyValBytes - (if item.dirty then (valLen item : Int) else 0),
          lruDel cac.lru k⟩ : Cache) k =
        ⟨eraseKey cac.items k, cac.ranges,
         cac.nrDirtyItems - (if item.dirty then 1 else 0),
         cac.dirtyValBytes - (if item.dirty then (valLen item : Int) else 0),
         lruDel cac.lru k⟩ := by
      unfold eraseItem
      rw [unlinkItem_spec
        ⟨insertSorted (eraseKey cac.items k) ⟨k, true, true, true, none⟩,
          cac.ranges,
          cac.nrDirtyItems - (if item.dirty then 1 else 0) + 1,
          cac.dirtyValBytes - (if item.dirty then (valLen item : Int) else 0),
          lruDel cac.lru k⟩ k ⟨k, true, true, true, none⟩ hfindMD]
      have he1 : eraseKey
          (insertSorted (eraseKey cac.items k) ⟨k, true, true, true, none⟩) k =
          eraseKey cac.items k :=
        eraseKey_insertSorted (eraseKey cac.items k) ⟨k, true, true, true, none⟩ k
          hne rfl
      simp [he1, lruDel_lruDel, valLen]
    have hinsrep : insertItem
        (⟨insertSorted (eraseKey cac.items k) ⟨k, true, true, true, none⟩,
          cac.ranges,
          cac.nrDirtyItems - (if item.dirty then 1 else 0) + 1,
          cac.dirtyValBytes - (if item.dirty then (valLen item : Int) else 0),
          lruDel cac.lru k⟩ : Cache)
        ({ item with dirty := false }) false false =
        (0, ⟨insertSorted (eraseKey cac.items k) { item with dirty := false },
             cac.ranges,
             cac.nrDirtyItems - (if item.dirty then 1 else 0),
             cac.dirtyValBytes - (if item.dirty then (valLen item : Int) else 0),
             lruDel cac.lru k ++ [item.key]⟩) := by
      rw [insertItem_replace_spec
        ⟨insertSorted (eraseKey cac.items k) ⟨k, true, true, true, none⟩,
          cac.ranges,
          cac.nrDirtyItems - (if item.dirty then 1 else 0) + 1,
          cac.dirtyValBytes - (if item.dirty then (valLen item : Int) else 0),
          lruDel cac.lru k⟩ { item with dirty := false }
        ⟨k, true, true, true, none⟩ (by rw [hk']; exact hfindMD) rfl]
      rw [show (⟨k, true, true, true, none⟩ : CachedItem).key = k from rfl]
      rw [hEr]
      simp [linkItem, lruAddTail,
        set_persistent_eta { item with dirty := false } (by simpa using hpers)]
    have hrest : restoreItems
        (⟨insertSorted (eraseKey cac.items k) ⟨k, true, true, true, none⟩,
          cac.ranges,
          cac.nrDirtyItems - (if item.dirty then 1 else 0) + 1,
          cac.dirtyValBytes - (if item.dirty then (valLen item : Int) else 0),
          lruDel cac.lru k⟩ : Cache) [item] =
        (if item.dirty then
          (⟨insertSorted (eraseKey cac.items k) item, cac.ranges,
            cac.nrDirtyItems, cac.dirtyValBytes, lruDel cac.lru k⟩ : Cache)
         else
          ⟨insertSorted (eraseKey cac.items k) item, cac.ranges,
           cac.nrDirtyItems, cac.dirtyValBytes,
           lruDel cac.lru k ++ [item.key]⟩) := by
      unfold restoreItems
      simp only [hfindC1none, hinsrep, restoreItems_nil]
      by_cases hdirty : item.dirty = true
      · rw [if_pos (by simpa using hdirty), if_pos (by simpa using hdirty),
          if_pos (by simpa using hdirty), if_pos (by simpa using hdirty)]
        have hfindI : findItemRaw
            (insertSorted (eraseKey cac.items k) { item with dirty := false })
            item.key = some { item with dirty := false } := by
          have := findItemRaw_insertSorted_self (eraseKey cac.items k)
            { item with dirty := false } (by intro x hx; rw [hk']; exact hne x hx)
          rw [hk'] at this
          rw [hk]
          exact this
        rw [markItemDirty_of_clean
          ⟨insertSorted (eraseKey cac.items k) { item with dirty := false },
           cac.ranges, cac.nrDirtyItems - 1,
           cac.dirtyValBytes - (valLen item : Int),
           lruDel cac.lru k ++ [item.key]⟩ item.key
          { item with dirty := false } hfindI rfl]
        have hsm : setItem
            (insertSorted (eraseKey cac.items k) { item with dirty := false })
            item.key (fun i => { i with dirty := true }) =
            insertSorted (eraseKey cac.items k) item := by
          have h2 := setItem_insertSorted (eraseKey cac.items k)
            { item with dirty := false } item.key
            (fun i => { i with dirty := true }) hnmem rfl rfl
          simpa [set_dirty_true_eta item hdirty] using h2
        rw [hsm]
        have hlru : lruDel (lruDel cac.lru k ++ [item.key]) item.key =
            lruDel cac.lru k := by
          rw [hk, lruDel_append_self, lruDel_lruDel]
        rw [hlru]
        have hvl : valLen { item with dirty := false } = valLen item := rfl
        simp [hvl]
        try omega
      · rw [if_neg (by simpa using hdirty), if_neg (by simpa using hdirty),
          if_neg (by simpa using hdirty), if_neg (by simpa using hdirty)]
        have hdf : item.dirty = false := by simpa using hdirty
        rw [clear_dirty_eta item hdf]
        simp [hdf]
    rw [restore_single
      (⟨insertSorted (eraseKey cac.items k) ⟨k, true, true, true, none⟩,
        cac.ranges,
        cac.nrDirtyItems - (if item.dirty then 1 else 0) + 1,
        cac.dirtyValBytes - (if item.dirty then (valLen item : Int) else 0),
        lruDel cac.lru k⟩ : Cache) item lock hcov2
      (by rw [show item.key = k from hk]; exact hrng)]
    rw [hrest]
    by_cases hdirty : item.dirty = true
    · rw [if_pos (by simpa using hdirty), if_pos (by simpa using hdirty),
        if_pos (by simpa using hdirty)]
      exact ⟨rfl, rfl, rfl, hfindFin, rfl, rfl⟩
    · rw [if_neg (by simpa using hdirty), if_neg (by simpa using hdirty),
        if_neg (by simpa using hdirty)]
      exact ⟨rfl, rfl, rfl, hfindFin, rfl, rfl⟩
  · have hpf : item.persistent = false := by simpa using hpers
    rw [hpf] at hA hfindW ⊢
    have hB : deleteItem
        (⟨insertSorted (eraseKey cac.items k) ⟨k, false, false, false, none⟩,
          cac.ranges,
          cac.nrDirtyItems - (if item.dirty then 1 else 0),
          cac.dirtyValBytes - (if item.dirty then (valLen item : Int) else 0),
          lruAddTail (lruDel cac.lru k) k⟩ : Cache) k =
        ⟨eraseKey cac.items k, cac.ranges,
         cac.nrDirtyItems - (if item.dirty then 1 else 0),
         cac.dirtyValBytes - (if item.dirty then (valLen item : Int) else 0),
         lruDel cac.lru k⟩ := by
      rw [deleteItem_nonpersistent_spec
        ⟨insertSorted (eraseKey cac.items k) ⟨k, false, false, false, none⟩,
          cac.ranges,
          cac.nrDirtyItems - (if item.dirty then 1 else 0),
          cac.dirtyValBytes - (if item.dirty then (valLen item : Int) else 0),
          lruAddTail (lruDel cac.lru k) k⟩ k
        ⟨k, false, false, false, none⟩ hfindW rfl]
      unfold eraseItem
      rw [unlinkItem_spec
        ⟨insertSorted (eraseKey cac.items k) ⟨k, false, false, false, none⟩,
          cac.ranges,
          cac.nrDirtyItems - (if item.dirty then 1 else 0),
          cac.dirtyValBytes - (if item.dirty then (valLen item : Int) else 0),
          lruAddTail (lruDel cac.lru k) k⟩ k
        ⟨k, false, false, false, none⟩ hfindW]
      have he1 : eraseKey
          (insertSorted (eraseKey cac.items k) ⟨k, false, false, false, none⟩) k =
          eraseKey cac.items k :=
        eraseKey_insertSorted (eraseKey cac.items k) ⟨k, false, false, false, none⟩ k
          hne rfl
      simp [he1, lruAddTail, lruDel_append_self, lruDel_lruDel]
    rw [hB]
    have hfindC1none : findItem (eraseKey cac.items k) item.key = none := by
      unfold findItem
      rw [hk, hnone]
    have hinsnone : insertItem
        (⟨eraseKey cac.items k, cac.ranges,
          cac.nrDirtyItems - (if item.dirty then 1 else 0),
          cac.dirtyValBytes - (if item.dirty then (valLen item : Int) else 0),
          lruDel cac.lru k⟩ : Cache) ({ item with dirty := false }) false false =
        (0, ⟨insertSorted (eraseKey cac.items k) { item with dirty := false },
             cac.ranges,
             cac.nrDirtyItems - (if item.dirty then 1 else 0),
             cac.dirtyValBytes - (if item.dirty then (valLen item : Int) else 0),
             lruDel cac.lru k ++ [item.key]⟩) := by
      rw [insertItem_none_spec
        ⟨eraseKey cac.items k, cac.ranges,
          cac.nrDirtyItems - (if item.dirty then 1 else 0),
          cac.dirtyValBytes - (if item.dirty then (valLen item : Int) else 0),
          lruDel cac.lru k⟩ { item with dirty := false } (by rw [hk']; exact hnone)]
      simp [lruAddTail]
    have hrest : restoreItems
        (⟨eraseKey cac.items k, cac.ranges,
          cac.nrDirtyItems - (if item.dirty then 1 else 0),
          cac.dirtyValBytes - (if item.dirty then (valLen item : Int) else 0),
          lruDel cac.lru k⟩ : Cache) [item] =
        (if item.dirty then
          (⟨insertSorted (eraseKey cac.items k) item, cac.ranges,
            cac.nrDirtyItems, cac.dirtyValBytes, lruDel cac.lru k⟩ : Cache)
         else
          ⟨insertSorted (eraseKey cac.items k) item, cac.ranges,
           cac.nrDirtyItems, cac.dirtyValBytes,
           lruDel cac.lru k ++ [item.key]⟩) := by
      unfold restoreItems
      simp only [hfindC1none, hinsnone, restoreItems_nil]
      by_cases hdirty : item.dirty = true
      · rw [if_pos (by simpa using hdirty), if_pos (by simpa using hdirty),
          if_pos (by simpa using hdirty), if_pos (by simpa using hdirty)]
        have hfindI : findItemRaw
            (insertSorted (eraseKey cac.items k) { item with dirty := false })
            item.key = some { item with dirty := false } := by
          have := findItemRaw_insertSorted_self (eraseKey cac.items k)
            { item with dirty := false } (by intro x hx; rw [hk']; exact hne x hx)
          rw [hk'] at this
          rw [hk]
          exact this
        rw [markItemDirty_of_clean
          ⟨insertSorted (eraseKey cac.items k) { item with dirty := false },
           cac.ranges, cac.nrDirtyItems - 1,
           cac.dirtyValBytes - (valLen item : Int),
           lruDel cac.lru k ++ [item.key]⟩ item.key
          { item with dirty := false } hfindI rfl]
        have hsm : setItem
            (insertSorted (eraseKey cac.items k) { item with dirty := false })
            item.key (fun i => { i with dirty := true }) =
            insertSorted (eraseKey cac.items k) item := by
          have h2 := setItem_insertSorted (eraseKey cac.items k)
            { item with dirty := false } item.key
            (fun i => { i with dirty := true }) hnmem rfl rfl
          simpa [set_dirty_true_eta item hdirty] using h2
        rw [hsm]
        have hlru : lruDel (lruDel cac.lru k ++ [item.key]) item.key =
            lruDel cac.lru k := by
          rw [hk, lruDel_append_self, lruDel_lruDel]
        rw [hlru]
        have hvl : valLen { item with dirty := false } = valLen item := rfl
        simp [hvl]
        try omega
      · rw [if_neg (by simpa using hdirty), if_neg (by simpa using hdirty),
          if_neg (by simpa using hdirty), if_neg (by simpa using hdirty)]
        have hdf : item.dirty = false := by simpa using hdirty
        rw [clear_dirty_eta item hdf]
        simp [hdf]
    rw [restore_single
      (⟨eraseKey cac.items k, cac.ranges,
        cac.nrDirtyItems - (if item.dirty then 1 else 0),
        cac.dirtyValBytes - (if item.dirty then (valLen item : Int) else 0),
        lruDel cac.lru k⟩ : Cache) item lock hcov2
      (by rw [show item.key = k from hk]; exact hrng)]
    rw [hrest]
    by_cases hdirty : item.dirty = true
    · rw [if_pos (by simpa using hdirty), if_pos (by simpa using hdirty),
        if_pos (by simpa using hdirty)]
      exact ⟨rfl, rfl, rfl, hfindFin, rfl, rfl⟩
    · rw [if_neg (by simpa using hdirty), if_neg (by simpa using hdirty),
        if_neg (by simpa using hdirty)]
      exact ⟨rfl, rfl, rfl, hfindFin, rfl, rfl⟩

theorem delete_save_restore_roundtrip_witness :
    NodupKeys [(⟨5, false, true, true, some [1, 2, 3]⟩ : CachedItem)] ∧
    ((deleteSaveStep
        ⟨[⟨5, false, true, true, some [1, 2, 3]⟩], [⟨0, 10⟩], 1, 3, [5]⟩
        5).1 = 0 ∧
     (deleteSaveStep
        ⟨[⟨5, false, true, true, some [1, 2, 3]⟩], [⟨0, 10⟩], 1, 3, [5]⟩
        5).2.2 = [⟨5, false, true, true, some [1, 2, 3]⟩] ∧
     (scoutfs_item_restore
        (deleteSaveStep
          ⟨[⟨5, false, true, true, some [1, 2, 3]⟩], [⟨0, 10⟩], 1, 3, [5]⟩
          5).2.1 [⟨5, false, true, true, some [1, 2, 3]⟩]
        ⟨LockMode.write, 0, 10⟩).1 = 0 ∧
     findItemRaw
        (scoutfs_item_restore
          (deleteSaveStep
            ⟨[⟨5, false, true, true, some [1, 2, 3]⟩], [⟨0, 10⟩], 1, 3, [5]⟩
            5).2.1 [⟨5, false, true, true, some [1, 2, 3]⟩]
          ⟨LockMode.write, 0, 10⟩).2.items 5 =
        some ⟨5, false, true, true, some [1, 2, 3]⟩ ∧
     (scoutfs_item_restore
        (deleteSaveStep
          ⟨[⟨5, false, true, true, some [1, 2, 3]⟩], [⟨0, 10⟩], 1, 3, [5]⟩
          5).2.1 [⟨5, false, true, true, some [1, 2, 3]⟩]
        ⟨LockMode.write, 0, 10⟩).2.nrDirtyItems = 1 ∧
     (scoutfs_item_restore
        (deleteSaveStep
          ⟨[⟨5, false, true, true, some [1, 2, 3]⟩], [⟨0, 10⟩], 1, 3, [5]⟩
          5).2.1 [⟨5, false, true, true, some [1, 2, 3]⟩]
        ⟨LockMode.write, 0, 10⟩).2.dirtyValBytes = 3) :=
  ⟨by decide,
   delete_save_restore_roundtrip
    ⟨[⟨5, false, true, true, some [1, 2, 3]⟩], [⟨0, 10⟩], 1, 3, [5]⟩
    5 ⟨LockMode.write, 0, 10⟩ ⟨5, false, true, true, some [1, 2, 3]⟩
    (by decide) (by decide) (by decide) (by decide)⟩

/-- Claim C2: for a key covered by the caller's lock, point lookup returns
the copied byte count truncated to the caller's buffer when a non-tombstone
item is cached at the key; returns the authoritative ENOENT when no
non-tombstone item exists but a cached range covers the key (tombstones act
as not-found because `find_item` hides them); otherwise requests a fill
from the reader and retries; and the internal fill-needed code ENODATA is
never surfaced to the caller. -/
theorem scoutfs_item_lookup_cases (cac : Cache) (key : Nat) (buf : Option Nat)
    (lock : Lock) (script : Script)
    (hcov : lockCoverage lock key LockMode.read = true) :
    (∀ n it, buf = some n → findItem cac.items key = some it →
      scoutfs_item_lookup cac key buf lock script =
        some (((min (valLen it) n : Nat) : Int), itemReferenced cac key)) ∧
    (findItem cac.items key = none → (checkRange cac.ranges key).isSome = true →
      scoutfs_item_lookup cac key buf lock script = some (ENOENT, cac)) ∧
    (findItem cac.items key = none → checkRange cac.ranges key = none →
      (script = [] → scoutfs_item_lookup cac key buf lock script = none) ∧
      (∀ r c2 rest, script = (r, c2) :: rest →
        scoutfs_item_lookup cac key buf lock script =
          if r = 0 then scoutfs_item_lookup c2 key buf lock rest
          else some (r, c2))) ∧
    ((∀ p ∈ script, p.1 ≠ ENODATA) →
      ∀ ret c, scoutfs_item_lookup cac key buf lock script = some (ret, c) →
        ret ≠ ENODATA) := by
  have henoent : ENOENT ≠ ENODATA := by unfold ENOENT ENODATA; omega
  refine ⟨?_, ?_, ?_, ?_⟩
  · intro n it hb hf
    subst hb
    have hmin : ((valLen it : Int) ⊓ (n : Int)) ≠ ENODATA := by
      rw [← Nat.cast_min]
      have h0 : (0 : Int) ≤ ((min (valLen it) n : Nat) : Int) := Int.natCast_nonneg _
      unfold ENODATA
      omega
    unfold scoutfs_item_lookup
    rw [hcov, lookupLoop.eq_def]
    simp [lookupStep, hf, copyItemVal, bne_iff_ne, hmin]
  · intro hf hr
    unfold scoutfs_item_lookup
    rw [hcov, lookupLoop.eq_def]
    simp [lookupStep, hf, hr, bne_iff_ne, henoent]
  · intro hf hr
    constructor
    · intro hs
      subst hs
      unfold scoutfs_item_lookup
      rw [hcov, lookupLoop.eq_def]
      simp [lookupStep, hf, hr]
    · intro r c2 rest hs
      subst hs
      unfold scoutfs_item_lookup
      rw [hcov, lookupLoop.eq_def]
      by_cases hr0 : r = 0
      · subst hr0
        have hlk : scoutfs_item_lookup c2 key buf lock rest =
            lookupLoop key buf c2 rest := by
          unfold scoutfs_item_lookup
          rw [hcov]
          simp
        simp [lookupStep, hf, hr, hlk]
      · simp [lookupStep, hf, hr, bne_iff_ne, hr0]
  · intro hs ret c h
    unfold scoutfs_item_lookup at h
    rw [hcov] at h
    simp only [Bool.not_true, Bool.false_eq_true, if_false] at h
    exact lookupLoop_ne_enodata key buf script cac hs ret c h

theorem scoutfs_item_lookup_cases_witness :
    lockCoverage ⟨LockMode.write, 0, 9⟩ 5 LockMode.read = true ∧
    ((some 2 : Option Nat) = some 2 →
      findItem [⟨5, false, false, false, some [1, 2, 3]⟩] 5 =
        some ⟨5, false, false, false, some [1, 2, 3]⟩ →
      scoutfs_item_lookup
        ⟨[⟨5, false, false, false, some [1, 2, 3]⟩], [⟨0, 9⟩], 0, 0, [5]⟩ 5
        (some 2) ⟨LockMode.write, 0, 9⟩ [] =
        some (((min (valLen ⟨5, false, false, false, some [1, 2, 3]⟩) 2 : Nat) : Int),
          itemReferenced
            ⟨[⟨5, false, false, false, some [1, 2, 3]⟩], [⟨0, 9⟩], 0, 0, [5]⟩ 5)) :=
  ⟨by decide,
   (scoutfs_item_lookup_cases
     ⟨[⟨5, false, false, false, some [1, 2, 3]⟩], [⟨0, 9⟩], 0, 0, [5]⟩ 5
     (some 2) ⟨LockMode.write, 0, 9⟩ [] (by decide)).1 2
     ⟨5, false, false, false, some [1, 2, 3]⟩⟩

theorem next_past_last_untouched_witness :
    (1 : Nat) < 2 ∧
    scoutfs_item_next ⟨[], [], 0, 0, []⟩ 2 1 none ⟨LockMode.write, 0, 9⟩ [] 5 =
      some (ENOENT, 2, ⟨[], [], 0, 0, []⟩, []) :=
  ⟨by decide,
   next_past_last_untouched ⟨[], [], 0, 0, []⟩ 2 1 none ⟨LockMode.write, 0, 9⟩ [] 5
     (by decide)⟩

/-!
Invariant-preservation lemmas: the list primitives.
-/

theorem mem_setItem {l : List CachedItem} {k : Nat}
    {f : CachedItem → CachedItem} {x : CachedItem}
    (hx : x ∈ setItem l k f) :
    x ∈ l ∨ ∃ it, findItemRaw l k = some it ∧ x = f it := by
  induction l with
  | nil => simp [setItem] at hx
  | cons it rest ih =>
    unfold setItem at hx
    by_cases hk : (it.key == k) = true
    · rw [if_pos hk] at hx
      rcases List.mem_cons.mp hx with h | h
      · exact Or.inr ⟨it,
          List.find?_cons_of_pos _ (by simpa using hk), h⟩
      · exact Or.inl (List.mem_cons_of_mem _ h)
    · rw [if_neg hk] at hx
      rcases List.mem_cons.mp hx with h | h
      · exact Or.inl (h ▸ List.mem_cons_self _ _)
      · rcases ih h with h' | ⟨it', hfi, hx'⟩
        · exact Or.inl (List.mem_cons_of_mem _ h')
        · refine Or.inr ⟨it', ?_, hx'⟩
          unfold findItemRaw at hfi ⊢
          rw [List.find?_cons_of_neg _ (by simpa using hk)]
          exact hfi

theorem mem_eraseKey {l : List CachedItem} {k : Nat} {x : CachedItem}
    (hx : x ∈ eraseKey l k) : x ∈ l := by
  induction l with
  | nil => simpa [eraseKey] using hx
  | cons it rest ih =>
    unfold eraseKey at hx
    by_cases hk : (it.key == k) = true
    · rw [if_pos hk] at hx
      exact List.mem_cons_of_mem _ hx
    · rw [if_neg hk] at hx
      rcases List.mem_cons.mp hx with h | h
      · exact h ▸ List.mem_cons_self _ _
      · exact List.mem_cons_of_mem _ (ih h)

theorem mem_insertSorted {l : List CachedItem} {ins x : CachedItem}
    (hx : x ∈ insertSorted l ins) : x ∈ l ∨ x = ins := by
  induction l with
  | nil => simpa [insertSorted] using hx
  | cons it rest ih =>
    unfold insertSorted at hx
    by_cases hlt : ins.key < it.key
    · rw [if_pos hlt] at hx
      rcases List.mem_cons.mp hx with h | h
      · exact Or.inr h
      · exact Or.inl h
    · rw [if_neg hlt] at hx
      rcases List.mem_cons.mp hx with h | h
      · exact Or.inl (h ▸ List.mem_cons_self _ _)
      · rcases ih h with h' | h'
        · exact Or.inl (List.mem_cons_of_mem _ h')
        · exact Or.inr h'

theorem eraseKey_of_none {l : List CachedItem} {k : Nat}
    (h : findItemRaw l k = none) : eraseKey l k = l := by
  induction l with
  | nil => rfl
  | cons it rest ih =>
    unfold findItemRaw at h ih
    by_cases hk : (it.key == k) = true
    · rw [List.find?_cons_of_pos _ (by simpa using hk)] at h
      exact absurd h (by simp)
    · rw [List.find?_cons_of_neg _ (by simpa using hk)] at h
      unfold eraseKey
      rw [if_neg hk, ih h]

theorem countDirty_setItem (l : List CachedItem) (k : Nat)
    (f : CachedItem → CachedItem) (it : CachedItem)
    (hraw : findItemRaw l k = some it) :
    countDirty (setItem l k f) =
      countDirty l - (if it.dirty then 1 else 0) +
        (if (f it).dirty then 1 else 0) := by
  induction l with
  | nil => simp [findItemRaw] at hraw
  | cons a rest ih =>
    unfold findItemRaw at hraw ih
    unfold setItem
    by_cases hk : (a.key == k) = true
    · rw [List.find?_cons_of_pos _ (by simpa using hk)] at hraw
      rw [Option.some.injEq] at hraw
      subst hraw
      rw [if_pos hk, countDirty_cons, countDirty_cons]
      ring
    · rw [List.find?_cons_of_neg _ (by simpa using hk)] at hraw
      rw [if_neg hk, countDirty_cons, countDirty_cons, ih hraw]
      ring

theorem sumDirty_setItem (l : List CachedItem) (k : Nat)
    (f : CachedItem → CachedItem) (it : CachedItem)
    (hraw : findItemRaw l k = some it) :
    sumDirty (setItem l k f) =
      sumDirty l - (if it.dirty then (valLen it : Int) else 0) +
        (if (f it).dirty then (valLen (f it) : Int) else 0) := by
  induction l with
  | nil => simp [findItemRaw] at hraw
  | cons a rest ih =>
    unfold findItemRaw at hraw ih
    unfold setItem
    by_cases hk : (a.key == k) = true
    · rw [List.find?_cons_of_pos _ (by simpa using hk)] at hraw
      rw [Option.some.injEq] at hraw
      subst hraw
      rw [if_pos hk, sumDirty_cons, sumDirty_cons]
      ring
    · rw [List.find?_cons_of_neg _ (by simpa using hk)] at hraw
      rw [if_neg hk, sumDirty_cons, sumDirty_cons, ih hraw]
      ring

theorem countDirty_eraseKey (l : List CachedItem) (k : Nat)
    (it : CachedItem) (hraw : findItemRaw l k = some it) :
    countDirty (eraseKey l k) =
      countDirty l - (if it.dirty then 1 else 0) := by
  induction l with
  | nil => simp [findItemRaw] at hraw
  | cons a rest ih =>
    unfold findItemRaw at hraw ih
    unfold eraseKey
    by_cases hk : (a.key == k) = true
    · rw [List.find?_cons_of_pos _ (by simpa using hk)] at hraw
      rw [Option.some.injEq] at hraw
      subst hraw
      rw [if_pos hk, countDirty_cons]
      ring
    · rw [List.find?_cons_of_neg _ (by simpa using hk)] at hraw
      rw [if_neg hk, countDirty_cons, countDirty_cons, ih hraw]
      ring

theorem sumDirty_eraseKey (l : List CachedItem) (k : Nat)
    (it : CachedItem) (hraw : findItemRaw l k = some it) :
    sumDirty (eraseKey l k) =
      sumDirty l - (if it.dirty then (valLen it : Int) else 0) := by
  induction l with
  | nil => simp [findItemRaw] at hraw
  | cons a rest ih =>
    unfold findItemRaw at hraw ih
    unfold eraseKey
    by_cases hk : (a.key == k) = true
    · rw [List.find?_cons_of_pos _ (by simpa using hk)] at hraw
      rw [Option.some.injEq] at hraw
      subst hraw
      rw [if_pos hk, sumDirty_cons]
      ring
    · rw [List.find?_cons_of_neg _ (by simpa using hk)] at hraw
      rw [if_neg hk, sumDirty_cons, sumDirty_cons, ih hraw]
      ring

theorem countDirty_insertSorted (l : List CachedItem) (ins : CachedItem) :
    countDirty (insertSorted l ins) =
      countDirty l + (if ins.dirty then 1 else 0) := by
  induction l with
  | nil =>
    show countDirty [ins] = countDirty [] + (if ins.dirty then 1 else 0)
    rw [countDirty_cons]
    show (if ins.dirty = true then (1 : Int) else 0) + countDirty [] =
      countDirty [] + (if ins.dirty = true then 1 else 0)
    ring
  | cons it rest ih =>
    unfold insertSorted
    by_cases hlt : ins.key < it.key
    · rw [if_pos hlt, countDirty_cons, countDirty_cons]
      ring
    · rw [if_neg hlt, countDirty_cons, countDirty_cons, ih]
      ring

theorem sumDirty_insertSorted (l : List CachedItem) (ins : CachedItem) :
    sumDirty (insertSorted l ins) =
      sumDirty l + (if ins.dirty then (valLen ins : Int) else 0) := by
  induction l with
  | nil =>
    show sumDirty [ins] = sumDirty [] + (if ins.dirty then (valLen ins : Int) else 0)
    rw [sumDirty_cons]
    show (if ins.dirty = true then (valLen ins : Int) else 0) + sumDirty [] =
      sumDirty [] + (if ins.dirty = true then (valLen ins : Int) else 0)
    ring
  | cons it rest ih =>
    unfold insertSorted
    by_cases hlt : ins.key < it.key
    · rw [if_pos hlt, sumDirty_cons, sumDirty_cons]
      ring
    · rw [if_neg hlt, sumDirty_cons, sumDirty_cons, ih]
      ring

/-!
Invariant-preservation lemmas: the cache primitives.
-/

theorem itemReferenced_items (c : Cache) (k : Nat) :
    (itemReferenced c k).items = c.items := by
  unfold itemReferenced
  cases hraw : findItemRaw c.items k with
  | none => rfl
  | some it =>
    show (if it.dirty then c else
      { c with lru := lruMoveTail c.lru k }).items = c.items
    by_cases hd : it.dirty = true
    · rw [if_pos hd]
    · rw [if_neg hd]

theorem tombInv_itemReferenced (c : Cache) (k : Nat) (h : tombInv c) :
    tombInv (itemReferenced c k) := by
  intro x hx
  rw [itemReferenced_items] at hx
  exact h x hx

theorem dirtyInv_itemReferenced (c : Cache) (k : Nat) (h : dirtyInv c) :
    dirtyInv (itemReferenced c k) := by
  unfold itemReferenced
  cases hraw : findItemRaw c.items k with
  | none => exact h
  | some it =>
    show dirtyInv (if it.dirty then c else
      { c with lru := lruMoveTail c.lru k })
    by_cases hd : it.dirty = true
    · rw [if_pos hd]
      exact h
    · rw [if_neg hd]
      exact h

theorem tombInv_clearItemDirty (c : Cache) (k : Nat) (h : tombInv c) :
    tombInv (clearItemDirty c k) := by
  cases hraw : findItemRaw c.items k with
  | none =>
    unfold clearItemDirty
    rw [hraw]
    exact h
  | some it =>
    by_cases hd : it.dirty = true
    · rw [clearItemDirty_of_dirty c k it hraw hd]
      intro x hx
      rcases mem_setItem
          (show x ∈ setItem c.items k (fun i => { i with dirty := false })
            from hx) with h' | ⟨it', hfi, rfl⟩
      · exact h x h'
      · exact h it' (findItemRaw_mem hfi)
    · rw [clearItemDirty_of_clean c k it hraw (by simpa using hd)]
      exact h

theorem dirtyInv_clearItemDirty (c : Cache) (k : Nat) (h : dirtyInv c) :
    dirtyInv (clearItemDirty c k) := by
  cases hraw : findItemRaw c.items k with
  | none =>
    unfold clearItemDirty
    rw [hraw]
    exact h
  | some it =>
    by_cases hd : it.dirty = true
    · rw [clearItemDirty_of_dirty c k it hraw hd]
      obtain ⟨h1, h2⟩ := h
      refine ⟨?_, ?_⟩
      · show c.nrDirtyItems - 1 =
          countDirty (setItem c.items k (fun i => { i with dirty := false }))
        rw [countDirty_setItem c.items k _ it hraw, hd]
        simp
        omega
      · show c.dirtyValBytes - (valLen it : Int) =
          sumDirty (setItem c.items k (fun i => { i with dirty := false }))
        rw [sumDirty_setItem c.items k _ it hraw, hd]
        simp
        omega
    · rw [clearItemDirty_of_clean c k it hraw (by simpa using hd)]
      exact h

theorem tombInv_markItemDirty (c : Cache) (k : Nat) (h : tombInv c) :
    tombInv (markItemDirty c k) := by
  cases hraw : findItemRaw c.items k with
  | none =>
    unfold markItemDirty
    rw [hraw]
    exact h
  | some it =>
    by_cases hd : it.dirty = true
    · rw [markItemDirty_of_dirty c k it hraw hd]
      exact h
    · rw [markItemDirty_of_clean c k it hraw (by simpa using hd)]
      intro x hx
      rcases mem_setItem
          (show x ∈ setItem c.items k (fun i => { i with dirty := true })
            from hx) with h' | ⟨it', hfi, rfl⟩
      · exact h x h'
      · exact h it' (findItemRaw_mem hfi)

theorem dirtyInv_markItemDirty (c : Cache) (k : Nat) (h : dirtyInv c) :
    dirtyInv (markItemDirty c k) := by
  cases hraw : findItemRaw c.items k with
  | none =>
    unfold markItemDirty
    rw [hraw]
    exact h
  | some it =>
    by_cases hd : it.dirty = true
    · rw [markItemDirty_of_dirty c k it hraw hd]
      exact h
    · have hd' : it.dirty = false := by simpa using hd
      rw [markItemDirty_of_clean c k it hraw hd']
      obtain ⟨h1, h2⟩ := h
      refine ⟨?_, ?_⟩
      · show c.nrDirtyItems + 1 =
          countDirty (setItem c.items k (fun i => { i with dirty := true }))
        rw [countDirty_setItem c.items k _ it hraw, hd']
        simp
        omega
      · show c.dirtyValBytes + (valLen it : Int) =
          sumDirty (setItem c.items k (fun i => { i with dirty := true }))
        rw [sumDirty_setItem c.items k _ it hraw, hd']
        have hvl : valLen { it with dirty := true } = valLen it := rfl
        simp [hvl]
        omega

theorem findItemRaw_clearItemDirty (c : Cache) (k : Nat) :
    findItemRaw (clearItemDirty c k).items k =
      Option.map (fun i => { i with dirty := false })
        (findItemRaw c.items k) := by
  cases hraw : findItemRaw c.items k with
  | none =>
    unfold clearItemDirty
    rw [hraw]
    show findItemRaw c.items k = none
    exact hraw
  | some it =>
    by_cases hd : it.dirty = true
    · rw [clearItemDirty_of_dirty c k it hraw hd]
      exact findItemRaw_setItem c.items k _ it hraw rfl
    · have hd' : it.dirty = false := by simpa using hd
      rw [clearItemDirty_of_clean c k it hraw hd']
      rw [hraw]
      show some it = some { it with dirty := false }
      rw [clear_dirty_eta it hd']

theorem unlinkItem_none (c : Cache) (k : Nat)
    (hraw : findItemRaw c.items k = none) :
    unlinkItem c k = { c with lru := lruDel c.lru k } := by
  unfold unlinkItem clearItemDirty
  rw [hraw]
  simp [eraseKey_of_none hraw]

theorem tombInv_unlinkItem (c : Cache) (k : Nat) (h : tombInv c) :
    tombInv (unlinkItem c k) := by
  cases hraw : findItemRaw c.items k with
  | none =>
    rw [unlinkItem_none c k hraw]
    exact h
  | some it =>
    rw [unlinkItem_spec c k it hraw]
    intro x hx
    exact h x (mem_eraseKey (show x ∈ eraseKey c.items k from hx))

theorem dirtyInv_unlinkItem (c : Cache) (k : Nat) (h : dirtyInv c) :
    dirtyInv (unlinkItem c k) := by
  cases hraw : findItemRaw c.items k with
  | none =>
    rw [unlinkItem_none c k hraw]
    exact h
  | some it =>
    rw [unlinkItem_spec c k it hraw]
    obtain ⟨h1, h2⟩ := h
    refine ⟨?_, ?_⟩
    · show c.nrDirtyItems - (if it.dirty then 1 else 0) =
        countDirty (eraseKey c.items k)
      rw [countDirty_eraseKey c.items k it hraw, h1]
    · show c.dirtyValBytes - (if it.dirty then (valLen it : Int) else 0) =
        sumDirty (eraseKey c.items k)
      rw [sumDirty_eraseKey c.items k it hraw, h2]

theorem tombInv_eraseItem (c : Cache) (k : Nat) (h : tombInv c) :
    tombInv (eraseItem c k) :=
  tombInv_unlinkItem c k h

theorem dirtyInv_eraseItem (c : Cache) (k : Nat) (h : dirtyInv c) :
    dirtyInv (eraseItem c k) :=
  dirtyInv_unlinkItem c k h

theorem tombInv_linkItem (c : Cache) (ins : CachedItem) (h : tombInv c)
    (hins : tombOk ins) : tombInv (linkItem c ins) := by
  intro x hx
  rcases mem_insertSorted
      (show x ∈ insertSorted c.items ins from hx) with h' | rfl
  · exact h x h'
  · exact hins

theorem dirtyInv_linkItem (c : Cache) (ins : CachedItem) (h : dirtyInv c)
    (hins : ins.dirty = false) : dirtyInv (linkItem c ins) := by
  obtain ⟨h1, h2⟩ := h
  refine ⟨?_, ?_⟩
  · show c.nrDirtyItems = countDirty (insertSorted c.items ins)
    rw [countDirty_insertSorted, hins]
    simp [h1]
  · show c.dirtyValBytes = sumDirty (insertSorted c.items ins)
    rw [sumDirty_insertSorted, hins]
    simp [h2]

theorem tombOk_inherit (ex ins : CachedItem) (hins : tombOk ins) :
    tombOk (if ex.persistent then { ins with persistent := true } else ins) := by
  by_cases hp : ex.persistent = true
  · rw [if_pos hp]
    intro hdel
    rcases hins hdel with ⟨_, hv0, hvn⟩
    exact ⟨rfl, hv0, hvn⟩
  · rw [if_neg hp]
    exact hins

theorem tombInv_insertItem (c : Cache) (ins : CachedItem) (lo cp : Bool)
    (h : tombInv c) (hins : tombOk ins) :
    tombInv (insertItem c ins lo cp).2 := by
  unfold insertItem
  cases hraw : findItemRaw c.items ins.key with
  | none =>
    exact tombInv_linkItem c ins h hins
  | some item =>
    show tombInv (if cp || (!item.deletion && !lo) then ((EEXIST : Int), c)
      else ((0 : Int), linkItem (eraseItem c item.key)
        (if item.persistent then { ins with persistent := true } else ins))).2
    by_cases hc : (cp || (!item.deletion && !lo)) = true
    · rw [if_pos hc]
      exact h
    · rw [if_neg hc]
      exact tombInv_linkItem _ _ (tombInv_eraseItem c item.key h)
        (tombOk_inherit item ins hins)

theorem dirtyInv_insertItem (c : Cache) (ins : CachedItem) (lo cp : Bool)
    (h : dirtyInv c) (hins : ins.dirty = false) :
    dirtyInv (insertItem c ins lo cp).2 := by
  unfold insertItem
  cases hraw : findItemRaw c.items ins.key with
  | none =>
    exact dirtyInv_linkItem c ins h hins
  | some item =>
    show dirtyInv (if cp || (!item.deletion && !lo) then ((EEXIST : Int), c)
      else ((0 : Int), linkItem (eraseItem c item.key)
        (if item.persistent then { ins with persistent := true } else ins))).2
    by_cases hc : (cp || (!item.deletion && !lo)) = true
    · rw [if_pos hc]
      exact h
    · rw [if_neg hc]
      apply dirtyInv_linkItem _ _ (dirtyInv_eraseItem c item.key h)
      by_cases hp : item.persistent = true
      · rw [if_pos hp]
        exact hins
      · rw [if_neg hp]
        exact hins

theorem tombInv_deleteItem (c : Cache) (k : Nat) (h : tombInv c) :
    tombInv (deleteItem c k) := by
  unfold deleteItem
  cases hraw : findItemRaw c.items k with
  | none =>
    exact h
  | some it =>
    show tombInv (if !it.persistent then eraseItem c k else
      markItemDirty
        { clearItemDirty c k with
          items := setItem (clearItemDirty c k).items k
            (fun i => { i with val := none, deletion := true }) } k)
    by_cases hp : it.persistent = true
    · rw [if_neg (by simpa using hp)]
      apply tombInv_markItemDirty
      intro x hx
      rcases mem_setItem
          (show x ∈ setItem (clearItemDirty c k).items k
              (fun i => { i with val := none, deletion := true })
            from hx) with h' | ⟨it', hfi, rfl⟩
      · exact tombInv_clearItemDirty c k h x h'
      · have hfc := findItemRaw_clearItemDirty c k
        rw [hraw] at hfc
        have hit' : it' = { it with dirty := false } := by
          have h2 := hfc.symm.trans hfi
          rw [show Option.map (fun i => ({ i with dirty := false } : CachedItem))
            (some it) = some { it with dirty := false } from rfl] at h2
          exact (Option.some.inj h2).symm
        intro _
        refine ⟨?_, rfl, rfl⟩
        show it'.persistent = true
        rw [hit']
        exact hp
    · rw [if_pos (by simpa using hp)]
      exact tombInv_eraseItem c k h

theorem dirtyInv_deleteItem (c : Cache) (k : Nat) (h : dirtyInv c) :
    dirtyInv (deleteItem c k) := by
  unfold deleteItem
  cases hraw : findItemRaw c.items k with
  | none =>
    exact h
  | some it =>
    show dirtyInv (if !it.persistent then eraseItem c k else
      markItemDirty
        { clearItemDirty c k with
          items := setItem (clearItemDirty c k).items k
            (fun i => { i with val := none, deletion := true }) } k)
    by_cases hp : it.persistent = true
    · rw [if_neg (by simpa using hp)]
      apply dirtyInv_markItemDirty
      have hfc := findItemRaw_clearItemDirty c k
      rw [hraw] at hfc
      rw [show Option.map (fun i => ({ i with dirty := false } : CachedItem))
        (some it) = some { it with dirty := false } from rfl] at hfc
      obtain ⟨h1, h2⟩ := dirtyInv_clearItemDirty c k h
      refine ⟨?_, ?_⟩
      · show (clearItemDirty c k).nrDirtyItems =
          countDirty (setItem (clearItemDirty c k).items k
            (fun i => { i with val := none, deletion := true }))
        rw [countDirty_setItem _ k _ _ hfc]
        simp
        exact h1
      · show (clearItemDirty c k).dirtyValBytes =
          sumDirty (setItem (clearItemDirty c k).items k
            (fun i => { i with val := none, deletion := true }))
        rw [sumDirty_setItem _ k _ _ hfc]
        simp
        exact h2
    · rw [if_pos (by simpa using hp)]
      exact dirtyInv_eraseItem c k h

/-!
Invariant-preservation lemmas: the flush, invalidation and batch paths.
-/

theorem tombOk_alloc (k : Nat) (v : Option (List Nat)) :
    tombOk (allocItem k v) := by
  intro hd
  simp [allocItem] at hd

theorem tombOk_alloc_pers (k : Nat) (v : Option (List Nat)) (b : Bool) :
    tombOk { allocItem k v with persistent := b } := by
  intro hd
  simp [allocItem] at hd

theorem mem_filterMap_flushXform {l : List CachedItem} {x : CachedItem}
    (hx : x ∈ l.filterMap flushXform) :
    ∃ y ∈ l, flushXform y = some x :=
  List.mem_filterMap.mp hx

theorem flushXform_dirty_false {y x : CachedItem}
    (h : flushXform y = some x) : x.dirty = false := by
  unfold flushXform at h
  by_cases hd : y.dirty = true
  · rw [if_pos hd] at h
    by_cases hdel : y.deletion = true
    · rw [if_pos hdel] at h
      exact Option.noConfusion h
    · rw [if_neg hdel] at h
      rw [← Option.some.inj h]
  · rw [if_neg hd] at h
    rw [← Option.some.inj h]
    simpa using hd

theorem flushXform_tombOk {y x : CachedItem} (hy : tombOk y)
    (h : flushXform y = some x) : tombOk x := by
  unfold flushXform at h
  by_cases hd : y.dirty = true
  · rw [if_pos hd] at h
    by_cases hdel : y.deletion = true
    · rw [if_pos hdel] at h
      exact Option.noConfusion h
    · rw [if_neg hdel] at h
      rw [← Option.some.inj h]
      intro hdel2
      exact absurd (show y.deletion = true from hdel2) hdel
  · rw [if_neg hd] at h
    rw [← Option.some.inj h]
    exact hy

theorem tombInv_flushSeg (c : Cache) (h : tombInv c) :
    tombInv (flushSeg c).1 := by
  unfold flushSeg
  rw [flushItems_spec]
  intro x hx
  rcases mem_filterMap_flushXform
      (show x ∈ c.items.filterMap flushXform from hx) with ⟨y, hy, hfy⟩
  exact flushXform_tombOk (h y hy) hfy

theorem flush_items_clean (l : List CachedItem) :
    ∀ x ∈ l.filterMap flushXform, x.dirty = false := by
  intro x hx
  rcases mem_filterMap_flushXform hx with ⟨y, _, hfy⟩
  exact flushXform_dirty_false hfy

theorem dirtyInv_flushSeg (c : Cache) (h : dirtyInv c) :
    dirtyInv (flushSeg c).1 := by
  unfold flushSeg
  rw [flushItems_spec]
  obtain ⟨h1, h2⟩ := h
  refine ⟨?_, ?_⟩
  · show c.nrDirtyItems + -countDirty c.items =
      countDirty (c.items.filterMap flushXform)
    rw [countDirty_clean _ (flush_items_clean c.items)]
    omega
  · show c.dirtyValBytes + -sumDirty c.items =
      sumDirty (c.items.filterMap flushXform)
    rw [sumDirty_clean _ (flush_items_clean c.items)]
    omega

theorem tombInv_foldl_erase (ks : List Nat) :
    ∀ c : Cache, tombInv c →
      tombInv (ks.foldl (fun c k => eraseItem c k) c) := by
  induction ks with
  | nil => intro c h; exact h
  | cons k rest ih =>
    intro c h
    exact ih _ (tombInv_eraseItem c k h)

theorem dirtyInv_foldl_erase (ks : List Nat) :
    ∀ c : Cache, dirtyInv c →
      dirtyInv (ks.foldl (fun c k => eraseItem c k) c) := by
  induction ks with
  | nil => intro c h; exact h
  | cons k rest ih =>
    intro c h
    exact ih _ (dirtyInv_eraseItem c k h)

theorem tombInv_invalidateStep (c : Cache) (start stop : Nat)
    (h : tombInv c) : tombInv (invalidateStep c start stop) := by
  intro x hx
  exact tombInv_foldl_erase _ c h x hx

theorem dirtyInv_ranges (c : Cache) (r : List Rng) (h : dirtyInv c) :
    dirtyInv { c with ranges := r } := h

theorem dirtyInv_invalidateStep (c : Cache) (start stop : Nat)
    (h : dirtyInv c) : dirtyInv (invalidateStep c start stop) := by
  unfold invalidateStep
  simp only []
  exact dirtyInv_ranges _ _ (dirtyInv_foldl_erase _ c h)

theorem tombInv_insertBatchItems (list : List (Nat × Option (List Nat))) :
    ∀ c : Cache, tombInv c → tombInv (insertBatchItems c list) := by
  induction list with
  | nil => intro c h; exact h
  | cons kv rest ih =>
    intro c h
    cases kv with
    | mk k v =>
      show tombInv (insertBatchItems
        (insertItem c { allocItem k v with persistent := true } false true).2
        rest)
      exact ih _ (tombInv_insertItem c _ false true h (tombOk_alloc_pers k v true))

theorem dirtyInv_insertBatchItems (list : List (Nat × Option (List Nat))) :
    ∀ c : Cache, dirtyInv c → dirtyInv (insertBatchItems c list) := by
  induction list with
  | nil => intro c h; exact h
  | cons kv rest ih =>
    intro c h
    cases kv with
    | mk k v =>
      show dirtyInv (insertBatchItems
        (insertItem c { allocItem k v with persistent := true } false true).2
        rest)
      exact ih _ (dirtyInv_insertItem c _ false true h rfl)

theorem tombInv_insertBatchStep (c : Cache)
    (list : List (Nat × Option (List Nat))) (start stop : Nat)
    (h : tombInv c) : tombInv (insertBatchStep c list start stop).2 := by
  unfold insertBatchStep
  simp only []
  split
  · exact h
  · exact tombInv_insertBatchItems list _ h

theorem dirtyInv_insertBatchStep (c : Cache)
    (list : List (Nat × Option (List Nat))) (start stop : Nat)
    (h : dirtyInv c) : dirtyInv (insertBatchStep c list start stop).2 := by
  unfold insertBatchStep
  simp only []
  split
  · exact h
  · exact dirtyInv_insertBatchItems list _ h

/-!
Invariant-preservation lemmas: the public-API critical sections.
-/

theorem tombInv_lookupStep (c : Cache) (key : Nat) (buf : Option Nat)
    (h : tombInv c) : tombInv (lookupStep c key buf).2 := by
  unfold lookupStep
  simp only []
  split
  · split
    · exact tombInv_itemReferenced c key h
    · exact tombInv_itemReferenced c key h
  · split
    · exact h
    · exact h

theorem dirtyInv_lookupStep (c : Cache) (key : Nat) (buf : Option Nat)
    (h : dirtyInv c) : dirtyInv (lookupStep c key buf).2 := by
  unfold lookupStep
  simp only []
  split
  · split
    · exact dirtyInv_itemReferenced c key h
    · exact dirtyInv_itemReferenced c key h
  · split
    · exact h
    · exact h

theorem tombInv_createStep (c : Cache) (key : Nat) (val : Option (List Nat))
    (h : tombInv c) : tombInv (createStep c key val).2 := by
  unfold createStep
  simp only []
  split
  · exact h
  · split
    · exact tombInv_markItemDirty _ key
        (tombInv_insertItem c (allocItem key val) false false h
          (tombOk_alloc key val))
    · exact h

theorem dirtyInv_createStep (c : Cache) (key : Nat) (val : Option (List Nat))
    (h : dirtyInv c) : dirtyInv (createStep c key val).2 := by
  unfold createStep
  simp only []
  split
  · exact h
  · split
    · exact dirtyInv_markItemDirty _ key
        (dirtyInv_insertItem c (allocItem key val) false false h rfl)
    · exact h

theorem tombInv_createForceStep (c : Cache) (key : Nat)
    (val : Option (List Nat)) (r : Int) (c' : Cache) (h : tombInv c)
    (hc : createForceStep c key val = some (r, c')) : tombInv c' := by
  unfold createForceStep at hc
  simp only [] at hc
  split at hc
  · have h2 := Option.some.inj hc
    have hc2 : c' = markItemDirty
        (insertItem c { allocItem key val with persistent := true }
          true false).2 key := (congrArg Prod.snd h2).symm
    rw [hc2]
    exact tombInv_markItemDirty _ key
      (tombInv_insertItem c _ true false h (tombOk_alloc_pers key val true))
  · exact Option.noConfusion hc

theorem dirtyInv_createForceStep (c : Cache) (key : Nat)
    (val : Option (List Nat)) (r : Int) (c' : Cache) (h : dirtyInv c)
    (hc : createForceStep c key val = some (r, c')) : dirtyInv c' := by
  unfold createForceStep at hc
  simp only [] at hc
  split at hc
  · have h2 := Option.some.inj hc
    have hc2 : c' = markItemDirty
        (insertItem c { allocItem key val with persistent := true }
          true false).2 key := (congrArg Prod.snd h2).symm
    rw [hc2]
    exact dirtyInv_markItemDirty _ key
      (dirtyInv_insertItem c _ true false h rfl)
  · exact Option.noConfusion hc

theorem tombInv_dirtyStep (c : Cache) (key : Nat) (h : tombInv c) :
    tombInv (dirtyStep c key).2 := by
  unfold dirtyStep
  split
  · exact tombInv_markItemDirty c key h
  · split
    · exact h
    · exact h

theorem dirtyInv_dirtyStep (c : Cache) (key : Nat) (h : dirtyInv c) :
    dirtyInv (dirtyStep c key).2 := by
  unfold dirtyStep
  split
  · exact dirtyInv_markItemDirty c key h
  · split
    · exact h
    · exact h

theorem tombInv_updateStep (c : Cache) (key : Nat) (val : Option (List Nat))
    (h : tombInv c) : tombInv (updateStep c key val).2 := by
  unfold updateStep
  simp only []
  split
  next it hfind =>
    obtain ⟨hraw, hdel⟩ := findItem_eq_some.mp hfind
    apply tombInv_markItemDirty
    intro x hx
    rcases mem_setItem
        (show x ∈ setItem (clearItemDirty c key).items key
            (fun i => { i with val := val }) from hx) with h' | ⟨it', hfi, rfl⟩
    · exact tombInv_clearItemDirty c key h x h'
    · have hfc := findItemRaw_clearItemDirty c key
      rw [hraw] at hfc
      rw [show Option.map (fun i => ({ i with dirty := false } : CachedItem))
        (some it) = some { it with dirty := false } from rfl] at hfc
      have hit' : it' = { it with dirty := false } :=
        (Option.some.inj (hfc.symm.trans hfi)).symm
      intro hd2
      exfalso
      have hd3 : it'.deletion = true := hd2
      rw [hit'] at hd3
      have hd4 : it.deletion = true := hd3
      rw [hdel] at hd4
      exact Bool.noConfusion hd4
  next hfind =>
    split
    · exact h
    · exact h

theorem dirtyInv_updateStep (c : Cache) (key : Nat) (val : Option (List Nat))
    (h : dirtyInv c) : dirtyInv (updateStep c key val).2 := by
  unfold updateStep
  simp only []
  split
  next it hfind =>
    obtain ⟨hraw, hdel⟩ := findItem_eq_some.mp hfind
    apply dirtyInv_markItemDirty
    have hfc := findItemRaw_clearItemDirty c key
    rw [hraw] at hfc
    rw [show Option.map (fun i => ({ i with dirty := false } : CachedItem))
      (some it) = some { it with dirty := false } from rfl] at hfc
    obtain ⟨h1, h2⟩ := dirtyInv_clearItemDirty c key h
    refine ⟨?_, ?_⟩
    · show (clearItemDirty c key).nrDirtyItems =
        countDirty (setItem (clearItemDirty c key).items key
          (fun i => { i with val := val }))
      rw [countDirty_setItem _ key _ _ hfc]
      simp
      exact h1
    · show (clearItemDirty c key).dirtyValBytes =
        sumDirty (setItem (clearItemDirty c key).items key
          (fun i => { i with val := val }))
      rw [sumDirty_setItem _ key _ _ hfc]
      simp
      exact h2
  next hfind =>
    split
    · exact h
    · exact h

theorem tombInv_deleteStep (c : Cache) (key : Nat) (h : tombInv c) :
    tombInv (deleteStep c key).2 := by
  unfold deleteStep
  split
  · exact tombInv_deleteItem c key h
  · split
    · exact h
    · exact h

theorem dirtyInv_deleteStep (c : Cache) (key : Nat) (h : dirtyInv c) :
    dirtyInv (deleteStep c key).2 := by
  unfold deleteStep
  split
  · exact dirtyInv_deleteItem c key h
  · split
    · exact h
    · exact h

theorem tombInv_deleteForceStep (c : Cache) (key : Nat) (r : Int) (c' : Cache)
    (h : tombInv c) (hd : deleteForceStep c key = some (r, c')) :
    tombInv c' := by
  unfold deleteForceStep at hd
  simp only [] at hd
  split at hd
  · have h2 := Option.some.inj hd
    have hc2 : c' = deleteItem
        (markItemDirty
          (insertItem c { allocItem key none with persistent := true }
            true false).2 key) key := (congrArg Prod.snd h2).symm
    rw [hc2]
    exact tombInv_deleteItem _ _
      (tombInv_markItemDirty _ _
        (tombInv_insertItem c _ true false h (tombOk_alloc_pers key none true)))
  · exact Option.noConfusion hd

theorem dirtyInv_deleteForceStep (c : Cache) (key : Nat) (r : Int) (c' : Cache)
    (h : dirtyInv c) (hd : deleteForceStep c key = some (r, c')) :
    dirtyInv c' := by
  unfold deleteForceStep at hd
  simp only [] at hd
  split at hd
  · have h2 := Option.some.inj hd
    have hc2 : c' = deleteItem
        (markItemDirty
          (insertItem c { allocItem key none with persistent := true }
            true false).2 key) key := (congrArg Prod.snd h2).symm
    rw [hc2]
    exact dirtyInv_deleteItem _ _
      (dirtyInv_markItemDirty _ _ (dirtyInv_insertItem c _ true false h rfl))
  · exact Option.noConfusion hd

theorem tombInv_deleteDirtyStep (c : Cache) (key : Nat) (h : tombInv c) :
    tombInv (deleteDirtyStep c key) := by
  unfold deleteDirtyStep
  split
  · exact tombInv_deleteItem c key h
  · exact h

theorem dirtyInv_deleteDirtyStep (c : Cache) (key : Nat) (h : dirtyInv c) :
    dirtyInv (deleteDirtyStep c key) := by
  unfold deleteDirtyStep
  split
  · exact dirtyInv_deleteItem c key h
  · exact h

theorem tombInv_deleteSaveStep (c : Cache) (key : Nat) (h : tombInv c) :
    tombInv (deleteSaveStep c key).2.1 := by
  unfold deleteSaveStep
  simp only []
  split
  next item hfind =>
    split
    · exact tombInv_deleteItem _ _
        (tombInv_insertItem _ _ false false (tombInv_unlinkItem c key h)
          (tombOk_alloc_pers key none item.persistent))
    · exact tombInv_unlinkItem c key h
  next hfind =>
    split
    · exact h
    · exact h

theorem dirtyInv_deleteSaveStep (c : Cache) (key : Nat) (h : dirtyInv c) :
    dirtyInv (deleteSaveStep c key).2.1 := by
  unfold deleteSaveStep
  simp only []
  split
  next item hfind =>
    split
    · exact dirtyInv_deleteItem _ _
        (dirtyInv_insertItem _ _ false false (dirtyInv_unlinkItem c key h) rfl)
    · exact dirtyInv_unlinkItem c key h
  next hfind =>
    split
    · exact h
    · exact h

theorem tombInv_restoreItems (list : List CachedItem) :
    ∀ c : Cache, tombInv c → (∀ it ∈ list, tombOk it) →
      tombInv (restoreItems c list) := by
  induction list with
  | nil => intro c h _; exact h
  | cons item rest ih =>
    intro c h hl
    have hc1 : tombInv (match findItem c.items item.key with
        | some ex => eraseItem c ex.key
        | none => c) := by
      cases hf : findItem c.items item.key with
      | none => exact h
      | some ex => exact tombInv_eraseItem c ex.key h
    have hc2 := tombInv_insertItem _ { item with dirty := false } false false
      hc1 (show tombOk { item with dirty := false } from
        hl item (List.mem_cons_self _ _))
    have hstep : tombInv (if item.dirty then
        markItemDirty ((insertItem (match findItem c.items item.key with
          | some ex => eraseItem c ex.key
          | none => c) { item with dirty := false } false false).2) item.key
      else (insertItem (match findItem c.items item.key with
          | some ex => eraseItem c ex.key
          | none => c) { item with dirty := false } false false).2) := by
      by_cases hd : item.dirty = true
      · rw [if_pos hd]
        exact tombInv_markItemDirty _ _ hc2
      · rw [if_neg hd]
        exact hc2
    exact ih _ hstep (fun it hit => hl it (List.mem_cons_of_mem _ hit))

theorem dirtyInv_restoreItems (list : List CachedItem) :
    ∀ c : Cache, dirtyInv c → dirtyInv (restoreItems c list) := by
  induction list with
  | nil => intro c h; exact h
  | cons item rest ih =>
    intro c h
    have hc1 : dirtyInv (match findItem c.items item.key with
        | some ex => eraseItem c ex.key
        | none => c) := by
      cases hf : findItem c.items item.key with
      | none => exact h
      | some ex => exact dirtyInv_eraseItem c ex.key h
    have hc2 := dirtyInv_insertItem _ { item with dirty := false } false false
      hc1 rfl
    have hstep : dirtyInv (if item.dirty then
        markItemDirty ((insertItem (match findItem c.items item.key with
          | some ex => eraseItem c ex.key
          | none => c) { item with dirty := false } false false).2) item.key
      else (insertItem (match findItem c.items item.key with
          | some ex => eraseItem c ex.key
          | none => c) { item with dirty := false } false false).2) := by
      by_cases hd : item.dirty = true
      · rw [if_pos hd]
        exact dirtyInv_markItemDirty _ _ hc2
      · rw [if_neg hd]
        exact hc2
    exact ih _ hstep

theorem tombInv_restore (c : Cache) (list : List CachedItem) (lock : Lock)
    (h : tombInv c) (hl : ∀ it ∈ list, tombOk it) :
    tombInv (scoutfs_item_restore c list lock).2 := by
  unfold scoutfs_item_restore
  split
  · exact h
  · split
    · exact tombInv_restoreItems list c h hl
    · exact h

theorem dirtyInv_restore (c : Cache) (list : List CachedItem) (lock : Lock)
    (h : dirtyInv c) : dirtyInv (scoutfs_item_restore c list lock).2 := by
  unfold scoutfs_item_restore
  split
  · exact h
  · split
    · exact dirtyInv_restoreItems list c h
    · exact h

/-!
Invariant-preservation lemmas: in-place dirty update, iteration and the
shrinker.
-/

theorem tombInv_updateDirtyStep (c : Cache) (key : Nat)
    (val : Option (List Nat)) (c' : Cache) (h : tombInv c)
    (hu : updateDirtyStep c key val = some c') : tombInv c' := by
  unfold updateDirtyStep at hu
  simp only [] at hu
  split at hu
  · exact Option.noConfusion hu
  next it hfind =>
    split at hu
    · exact Option.noConfusion hu
    · obtain ⟨hraw, hdel⟩ := findItem_eq_some.mp hfind
      rw [← Option.some.inj hu]
      intro x hx
      rcases mem_setItem hx with h' | ⟨it', hfi, rfl⟩
      · exact h x h'
      · have hit : it' = it := Option.some.inj (hfi.symm.trans hraw)
        intro hd2
        exfalso
        have hd3 : it'.deletion = true := hd2
        rw [hit, hdel] at hd3
        exact Bool.noConfusion hd3

theorem dirtyInv_updateDirtyStep (c : Cache) (key : Nat)
    (val : Option (List Nat)) (c' : Cache) (h : dirtyInv c)
    (hu : updateDirtyStep c key val = some c') : dirtyInv c' := by
  cases hfind : findItem c.items key with
  | none =>
    unfold updateDirtyStep at hu
    rw [hfind] at hu
    exact Option.noConfusion hu
  | some it =>
    obtain ⟨hraw, hdel⟩ := findItem_eq_some.mp hfind
    obtain ⟨h1, h2⟩ := h
    unfold updateDirtyStep at hu
    rw [hfind] at hu
    simp only [] at hu
    cases val with
    | none =>
      cases hiv : it.val with
      | none =>
        rw [hiv] at hu
        simp only [] at hu
        by_cases hcond : (!it.dirty || decide (0 > valLen it)) = true
        · rw [if_pos hcond] at hu
          exact Option.noConfusion hu
        · rw [if_neg hcond] at hu
          rw [Bool.or_eq_true, not_or] at hcond
          obtain ⟨hc1, hc2⟩ := hcond
          have hdirty : it.dirty = true := by
            cases hdt : it.dirty
            · exact absurd (by rw [hdt]; rfl) hc1
            · rfl
          rw [← Option.some.inj hu]
          refine ⟨?_, ?_⟩
          · show c.nrDirtyItems + 0 = countDirty (setItem c.items key
              (fun i => { i with val := none }))
            rw [countDirty_setItem _ key _ it hraw]
            simp [hdirty]
            exact h1
          · show c.dirtyValBytes + ((0 : Int) - (valLen it : Int)) =
              sumDirty (setItem c.items key (fun i => { i with val := none }))
            rw [sumDirty_setItem _ key _ it hraw]
            simp [hdirty, valLen]
            omega
      | some w =>
        rw [hiv] at hu
        simp only [] at hu
        by_cases hcond : (!it.dirty || decide (0 > valLen it)) = true
        · rw [if_pos hcond] at hu
          exact Option.noConfusion hu
        · rw [if_neg hcond] at hu
          rw [Bool.or_eq_true, not_or] at hcond
          obtain ⟨hc1, hc2⟩ := hcond
          have hdirty : it.dirty = true := by
            cases hdt : it.dirty
            · exact absurd (by rw [hdt]; rfl) hc1
            · rfl
          rw [← Option.some.inj hu]
          refine ⟨?_, ?_⟩
          · show c.nrDirtyItems + 0 = countDirty (setItem c.items key
              (fun i => { i with val := some [] }))
            rw [countDirty_setItem _ key _ it hraw]
            simp [hdirty]
            exact h1
          · show c.dirtyValBytes + ((0 : Int) - (valLen it : Int)) =
              sumDirty (setItem c.items key
                (fun i => { i with val := some [] }))
            rw [sumDirty_setItem _ key _ it hraw]
            simp [hdirty, valLen]
            omega
    | some v =>
      cases hiv : it.val with
      | none =>
        rw [hiv] at hu
        simp only [] at hu
        have hv0 : valLen it = 0 := by simp [valLen, hiv]
        by_cases hcond : (!it.dirty || decide (v.length > valLen it)) = true
        · rw [if_pos hcond] at hu
          exact Option.noConfusion hu
        · rw [if_neg hcond] at hu
          rw [Bool.or_eq_true, not_or] at hcond
          obtain ⟨hc1, hc2⟩ := hcond
          have hdirty : it.dirty = true := by
            cases hdt : it.dirty
            · exact absurd (by rw [hdt]; rfl) hc1
            · rfl
          have hlen : v.length ≤ valLen it := Nat.le_of_not_lt (by simpa using hc2)
          rw [← Option.some.inj hu]
          refine ⟨?_, ?_⟩
          · show c.nrDirtyItems + 0 = countDirty (setItem c.items key
              (fun i => { i with val := none }))
            rw [countDirty_setItem _ key _ it hraw]
            simp [hdirty]
            exact h1
          · show c.dirtyValBytes + ((v.length : Int) - (valLen it : Int)) =
              sumDirty (setItem c.items key (fun i => { i with val := none }))
            rw [sumDirty_setItem _ key _ it hraw]
            simp [hdirty, valLen]
            omega
      | some w =>
        rw [hiv] at hu
        simp only [] at hu
        by_cases hcond : (!it.dirty || decide (v.length > valLen it)) = true
        · rw [if_pos hcond] at hu
          exact Option.noConfusion hu
        · rw [if_neg hcond] at hu
          rw [Bool.or_eq_true, not_or] at hcond
          obtain ⟨hc1, hc2⟩ := hcond
          have hdirty : it.dirty = true := by
            cases hdt : it.dirty
            · exact absurd (by rw [hdt]; rfl) hc1
            · rfl
          rw [← Option.some.inj hu]
          refine ⟨?_, ?_⟩
          · show c.nrDirtyItems + 0 = countDirty (setItem c.items key
              (fun i => { i with val := some v }))
            rw [countDirty_setItem _ key _ it hraw]
            simp [hdirty]
            exact h1
          · show c.dirtyValBytes + ((v.length : Int) - (valLen it : Int)) =
              sumDirty (setItem c.items key (fun i => { i with val := some v }))
            rw [sumDirty_setItem _ key _ it hraw]
            simp [hdirty, valLen]
            omega

theorem nextLoop_nil_cache (fuel : Nat) :
    ∀ (cac : Cache) (key0 pos last : Nat) (val : Option Nat) (r : Int)
      (k : Nat) (c : Cache) (s : Script),
      nextLoop fuel cac key0 pos last val [] = some (r, k, c, s) →
      c = cac ∨ ∃ kk, c = itemReferenced cac kk := by
  induction fuel with
  | zero =>
    intro cac key0 pos last val r k c s h
    exact Option.noConfusion h
  | succ fuel ih =>
    intro cac key0 pos last val r k c s h
    simp only [nextLoop] at h
    split at h
    · exact Option.noConfusion h
    · split at h
      · split at h
        · exact ih cac key0 _ last val r k c s h
        · exact Or.inl (congrArg (fun t => t.2.2.1) (Option.some.inj h)).symm
      · split at h
        · exact Or.inr ⟨_,
            (congrArg (fun t => t.2.2.1) (Option.some.inj h)).symm⟩
        · exact Or.inl (congrArg (fun t => t.2.2.1) (Option.some.inj h)).symm

theorem next_cache_aux (cac : Cache) (key last' : Nat) (val : Option Nat)
    (lock : Lock) (fuel : Nat) (r : Int) (k : Nat) (c : Cache) (s : Script)
    (h : (if last' < key then some ((ENOENT : Int), key, cac, ([] : Script))
      else if !lockCoverage lock key LockMode.read then
        some ((EINVAL : Int), key, cac, ([] : Script))
      else nextLoop fuel cac key key last' val []) = some (r, k, c, s)) :
    c = cac ∨ ∃ kk, c = itemReferenced cac kk := by
  split at h
  · exact Or.inl (congrArg (fun t => t.2.2.1) (Option.some.inj h)).symm
  · split at h
    · exact Or.inl (congrArg (fun t => t.2.2.1) (Option.some.inj h)).symm
    · exact nextLoop_nil_cache fuel cac key key last' val r k c s h

theorem next_cache_cases (cac : Cache) (key last : Nat) (val : Option Nat)
    (lock : Lock) (fuel : Nat) (r : Int) (k : Nat) (c : Cache) (s : Script)
    (h : scoutfs_item_next cac key last val lock [] fuel = some (r, k, c, s)) :
    c = cac ∨ ∃ kk, c = itemReferenced cac kk := by
  unfold scoutfs_item_next at h
  simp only [] at h
  by_cases hm : lock.stop < last
  · rw [if_pos hm] at h
    exact next_cache_aux cac key lock.stop val lock fuel r k c s h
  · rw [if_neg hm] at h
    exact next_cache_aux cac key last val lock fuel r k c s h

theorem prevLoop_nil_cache (fuel : Nat) :
    ∀ (cac : Cache) (key0 pos first : Nat) (val : Option Nat) (r : Int)
      (k : Nat) (c : Cache) (s : Script),
      prevLoop fuel cac key0 pos first val [] = some (r, k, c, s) →
      c = cac ∨ ∃ kk, c = itemReferenced cac kk := by
  induction fuel with
  | zero =>
    intro cac key0 pos first val r k c s h
    exact Option.noConfusion h
  | succ fuel ih =>
    intro cac key0 pos first val r k c s h
    simp only [prevLoop] at h
    split at h
    · exact Option.noConfusion h
    · split at h
      · split at h
        · exact ih cac key0 _ first val r k c s h
        · exact Or.inl (congrArg (fun t => t.2.2.1) (Option.some.inj h)).symm
      · split at h
        · exact Or.inr ⟨_,
            (congrArg (fun t => t.2.2.1) (Option.some.inj h)).symm⟩
        · exact Or.inl (congrArg (fun t => t.2.2.1) (Option.some.inj h)).symm

theorem prev_cache_aux (cac : Cache) (key first' : Nat) (val : Option Nat)
    (lock : Lock) (fuel : Nat) (r : Int) (k : Nat) (c : Cache) (s : Script)
    (h : (if key < first' then some ((ENOENT : Int), key, cac, ([] : Script))
      else if !lockCoverage lock key LockMode.read then
        some ((EINVAL : Int), key, cac, ([] : Script))
      else prevLoop fuel cac key key first' val []) = some (r, k, c, s)) :
    c = cac ∨ ∃ kk, c = itemReferenced cac kk := by
  split at h
  · exact Or.inl (congrArg (fun t => t.2.2.1) (Option.some.inj h)).symm
  · split at h
    · exact Or.inl (congrArg (fun t => t.2.2.1) (Option.some.inj h)).symm
    · exact prevLoop_nil_cache fuel cac key key first' val r k c s h

theorem prev_cache_cases (cac : Cache) (key first : Nat) (val : Option Nat)
    (lock : Lock) (fuel : Nat) (r : Int) (k : Nat) (c : Cache) (s : Script)
    (h : scoutfs_item_prev cac key first val lock [] fuel = some (r, k, c, s)) :
    c = cac ∨ ∃ kk, c = itemReferenced cac kk := by
  unfold scoutfs_item_prev at h
  simp only [] at h
  by_cases hm : lock.start > first
  · rw [if_pos hm] at h
    exact prev_cache_aux cac key lock.start val lock fuel r k c s h
  · rw [if_neg hm] at h
    exact prev_cache_aux cac key first val lock fuel r k c s h

theorem tombInv_shrinkAround (c : Cache) (rng : Rng) (item : CachedItem)
    (h : tombInv c) : tombInv (shrinkAround c rng item).1 := by
  unfold shrinkAround
  simp only []
  split
  · exact h
  · exact h
  next first prev lst nxt heq1 heq2 =>
    split
    · exact h
    · simp only []
      by_cases hprev : prev.isSome = true <;>
        by_cases hnext : nxt.isSome = true <;>
        simp only [hprev, hnext, Bool.true_and, Bool.false_and,
          Bool.and_true, Bool.and_false, Bool.not_true, Bool.not_false,
          if_true, if_false, Bool.false_eq_true, ite_false, ite_true] <;>
        first
        | exact tombInv_foldl_erase _ _
            (tombInv_unlinkItem
              { c with ranges :=
                  replaceRng c.ranges rng ⟨rng.start, keyDec first.key⟩ }
              lst.key h)
        | exact tombInv_foldl_erase _ _ h

theorem dirtyInv_shrinkAround (c : Cache) (rng : Rng) (item : CachedItem)
    (h : dirtyInv c) : dirtyInv (shrinkAround c rng item).1 := by
  unfold shrinkAround
  simp only []
  split
  · exact h
  · exact h
  next first prev lst nxt heq1 heq2 =>
    split
    · exact h
    · simp only []
      by_cases hprev : prev.isSome = true <;>
        by_cases hnext : nxt.isSome = true <;>
        simp only [hprev, hnext, Bool.true_and, Bool.false_and,
          Bool.and_true, Bool.and_false, Bool.not_true, Bool.not_false,
          if_true, if_false, Bool.false_eq_true, ite_false, ite_true] <;>
        first
        | exact dirtyInv_foldl_erase _ _
            (dirtyInv_unlinkItem
              { c with ranges :=
                  replaceRng c.ranges rng ⟨rng.start, keyDec first.key⟩ }
              lst.key h)
        | exact dirtyInv_foldl_erase _ _ h

theorem tombInv_shrinkLoop (fuel : Nat) :
    ∀ (c : Cache) (nr : Nat) (fm : Option Nat),
      tombInv c → tombInv (shrinkLoop fuel c nr fm) := by
  induction fuel with
  | zero => intro c nr fm h; exact h
  | succ fuel ih =>
    intro c nr fm h
    unfold shrinkLoop
    split
    · exact h
    · split
      · exact h
      next k rest2 heqlru =>
        split
        · exact h
        next item hraw =>
          split
          · exact h
          · split
            · exact ih (eraseItem c k) (nr - 1) fm (tombInv_eraseItem c k h)
            next rng hcr =>
              simp only []
              split
              · split
                · exact h
                · exact ih { c with lru := lruMoveTail c.lru k } nr _ h
              · exact ih (shrinkAround c rng item).1
                  (nr - min nr (shrinkAround c rng item).2) fm
                  (tombInv_shrinkAround c rng item h)

theorem dirtyInv_shrinkLoop (fuel : Nat) :
    ∀ (c : Cache) (nr : Nat) (fm : Option Nat),
      dirtyInv c → dirtyInv (shrinkLoop fuel c nr fm) := by
  induction fuel with
  | zero => intro c nr fm h; exact h
  | succ fuel ih =>
    intro c nr fm h
    unfold shrinkLoop
    split
    · exact h
    · split
      · exact h
      next k rest2 heqlru =>
        split
        · exact h
        next item hraw =>
          split
          · exact h
          · split
            · exact ih (eraseItem c k) (nr - 1) fm (dirtyInv_eraseItem c k h)
            next rng hcr =>
              simp only []
              split
              · split
                · exact h
                · exact ih { c with lru := lruMoveTail c.lru k } nr _ h
              · exact ih (shrinkAround c rng item).1
                  (nr - min nr (shrinkAround c rng item).2) fm
                  (dirtyInv_shrinkAround c rng item h)

theorem tombInv_shrinkStep (c : Cache) (n : Nat) (h : tombInv c) :
    tombInv (shrinkStep c n) := by
  unfold shrinkStep
  split
  · exact h
  · simp only []
    split
    · intro x hx
      exact tombInv_shrinkLoop _ _ _ _ h x hx
    · exact tombInv_shrinkLoop _ _ _ _ h

theorem dirtyInv_shrinkStep (c : Cache) (n : Nat) (h : dirtyInv c) :
    dirtyInv (shrinkStep c n) := by
  unfold shrinkStep
  split
  · exact h
  · simp only []
    split
    · exact dirtyInv_ranges _ _ (dirtyInv_shrinkLoop _ _ _ _ h)
    · exact dirtyInv_shrinkLoop _ _ _ _ h

/-- Claim C3: every cache operation preserves the tombstone invariant:
each deletion item in the item map has `persistent = true` and an empty
value (`val_len = 0`, no value buffer).  The items injected by `restore`
are records handed out by `delete_save`, captured by the well-formedness
side condition `WfOp`. -/
theorem tombstone_invariant_preserved (cac : Cache) (op : Op)
    (hwf : WfOp op) (h : tombInv cac) : tombInv (applyOp cac op) := by
  cases op with
  | lookup key buf => exact tombInv_lookupStep cac key buf h
  | next key last val lock fuel =>
    unfold applyOp
    simp only []
    cases hsn : scoutfs_item_next cac key last val lock [] fuel with
    | none => exact h
    | some t =>
      obtain ⟨r, k, c, s⟩ := t
      show tombInv c
      rcases next_cache_cases cac key last val lock fuel r k c s hsn with
        hc | ⟨kk, hc⟩
      · rw [hc]
        exact h
      · rw [hc]
        exact tombInv_itemReferenced cac kk h
  | prev key first val lock fuel =>
    unfold applyOp
    simp only []
    cases hsp : scoutfs_item_prev cac key first val lock [] fuel with
    | none => exact h
    | some t =>
      obtain ⟨r, k, c, s⟩ := t
      show tombInv c
      rcases prev_cache_cases cac key first val lock fuel r k c s hsp with
        hc | ⟨kk, hc⟩
      · rw [hc]
        exact h
      · rw [hc]
        exact tombInv_itemReferenced cac kk h
  | create key val => exact tombInv_createStep cac key val h
  | createForce key val =>
    unfold applyOp
    simp only []
    cases hcf : createForceStep cac key val with
    | none => exact h
    | some t =>
      obtain ⟨r, c'⟩ := t
      show tombInv c'
      exact tombInv_createForceStep cac key val r c' h hcf
  | insertBatch list start stop =>
    exact tombInv_insertBatchStep cac list start stop h
  | dirty key => exact tombInv_dirtyStep cac key h
  | update key val => exact tombInv_updateStep cac key val h
  | updateDirty key val =>
    unfold applyOp
    simp only []
    cases hud : updateDirtyStep cac key val with
    | none => exact h
    | some c' =>
      show tombInv c'
      exact tombInv_updateDirtyStep cac key val c' h hud
  | delete key => exact tombInv_deleteStep cac key h
  | deleteForce key =>
    unfold applyOp
    simp only []
    cases hdf : deleteForceStep cac key with
    | none => exact h
    | some t =>
      obtain ⟨r, c'⟩ := t
      show tombInv c'
      exact tombInv_deleteForceStep cac key r c' h hdf
  | deleteDirty key => exact tombInv_deleteDirtyStep cac key h
  | deleteSave key => exact tombInv_deleteSaveStep cac key h
  | restore list lock =>
    apply tombInv_restore cac list lock h
    intro it hit hd
    obtain ⟨hp, hv⟩ := hwf it hit hd
    exact ⟨hp, by simp [valLen, hv], hv⟩
  | flush => exact tombInv_flushSeg cac h
  | invalidate start stop => exact tombInv_invalidateStep cac start stop h
  | shrink n => exact tombInv_shrinkStep cac n h

theorem tombstone_invariant_preserved_witness :
    WfOp (Op.delete 5) ∧
    tombInv (⟨[⟨5, false, true, true, some [1, 2]⟩], [⟨0, 9⟩], 1, 2, []⟩ :
      Cache) ∧
    tombInv (applyOp
      ⟨[⟨5, false, true, true, some [1, 2]⟩], [⟨0, 9⟩], 1, 2, []⟩
      (Op.delete 5)) :=
  ⟨trivial, by decide,
   tombstone_invariant_preserved
     ⟨[⟨5, false, true, true, some [1, 2]⟩], [⟨0, 9⟩], 1, 2, []⟩
     (Op.delete 5) trivial (by decide)⟩

/-- Claim C4: every cache operation preserves the dirty-accounting
invariant: `nr_dirty_items` is the number of items with the SELF dirty
bit set and `dirty_val_bytes` is the sum of `val_len` over exactly those
items. -/
theorem dirty_accounting_preserved (cac : Cache) (op : Op)
    (h : dirtyInv cac) : dirtyInv (applyOp cac op) := by
  cases op with
  | lookup key buf => exact dirtyInv_lookupStep cac key buf h
  | next key last val lock fuel =>
    unfold applyOp
    simp only []
    cases hsn : scoutfs_item_next cac key last val lock [] fuel with
    | none => exact h
    | some t =>
      obtain ⟨r, k, c, s⟩ := t
      show dirtyInv c
      rcases next_cache_cases cac key last val lock fuel r k c s hsn with
        hc | ⟨kk, hc⟩
      · rw [hc]
        exact h
      · rw [hc]
        exact dirtyInv_itemReferenced cac kk h
  | prev key first val lock fuel =>
    unfold applyOp
    simp only []
    cases hsp : scoutfs_item_prev cac key first val lock [] fuel with
    | none => exact h
    | some t =>
      obtain ⟨r, k, c, s⟩ := t
      show dirtyInv c
      rcases prev_cache_cases cac key first val lock fuel r k c s hsp with
        hc | ⟨kk, hc⟩
      · rw [hc]
        exact h
      · rw [hc]
        exact dirtyInv_itemReferenced cac kk h
  | create key val => exact dirtyInv_createStep cac key val h
  | createForce key val =>
    unfold applyOp
    simp only []
    cases hcf : createForceStep cac key val with
    | none => exact h
    | some t =>
      obtain ⟨r, c'⟩ := t
      show dirtyInv c'
      exact dirtyInv_createForceStep cac key val r c' h hcf
  | insertBatch list start stop =>
    exact dirtyInv_insertBatchStep cac list start stop h
  | dirty key => exact dirtyInv_dirtyStep cac key h
  | update key val => exact dirtyInv_updateStep cac key val h
  | updateDirty key val =>
    unfold applyOp
    simp only []
    cases hud : updateDirtyStep cac key val with
    | none => exact h
    | some c' =>
      show dirtyInv c'
      exact dirtyInv_updateDirtyStep cac key val c' h hud
  | delete key => exact dirtyInv_deleteStep cac key h
  | deleteForce key =>
    unfold applyOp
    simp only []
    cases hdf : deleteForceStep cac key with
    | none => exact h
    | some t =>
      obtain ⟨r, c'⟩ := t
      show dirtyInv c'
      exact dirtyInv_deleteForceStep cac key r c' h hdf
  | deleteDirty key => exact dirtyInv_deleteDirtyStep cac key h
  | deleteSave key => exact dirtyInv_deleteSaveStep cac key h
  | restore list lock => exact dirtyInv_restore cac list lock h
  | flush => exact dirtyInv_flushSeg cac h
  | invalidate start stop => exact dirtyInv_invalidateStep cac start stop h
  | shrink n => exact dirtyInv_shrinkStep cac n h

theorem dirty_accounting_preserved_witness :
    dirtyInv (⟨[⟨3, false, false, true, some [7, 8, 9]⟩], [⟨0, 9⟩], 1, 3, []⟩ :
      Cache) ∧
    dirtyInv (applyOp
      ⟨[⟨3, false, false, true, some [7, 8, 9]⟩], [⟨0, 9⟩], 1, 3, []⟩
      Op.flush) :=
  ⟨by decide,
   dirty_accounting_preserved
     ⟨[⟨3, false, false, true, some [7, 8, 9]⟩], [⟨0, 9⟩], 1, 3, []⟩
     Op.flush (by decide)⟩

end Scoutfs
